import Mathlib

/-!
# Verification of the NativeMergeTree core

Shallow embedding of the collaborative text-sequence engine found in
`examples/experiments/NativeMergeTree` (`MergeTree.h`, `Seq.h`, `Router.h`,
`Messages.h`) and `samples/experiments/NativeMergeTree/PartialLengths.h`.

Machine integers are modelled as `Nat` with explicit `% 2^32` where the C++
code performs `uint32_t` arithmetic, and as `Int` where the code uses `int`
(`CharacterPosition`, `dcp`).  Raw pointers are modelled by unique identifiers
(`segId` for segments, block ids for interior nodes); the tree itself is an
inductive value, and the parent / child-index back pointers of the C++
`MergeNode` are represented by paths from the root plus the stored `index`
field.  `assert` is a no-op (as in a release build); the one assert whose
reachability is itself a claim (`SendReplaceOp`) is modelled explicitly.
-/

namespace MergeTreeSpec

/-! ## Basic scalar types: `Seq`, `CharacterPosition` (Seq.h) -/

/-- `2^32`, the modulus of `uint32_t` arithmetic. -/
def U32 : Nat := 4294967296

/-- `TPartialLengths::lengthNil = std::numeric_limits<uint32_t>::max()`. -/
def lengthNil : Nat := 4294967295

/-- `TPartialLengths::lengthMax = lengthNil - 1`. -/
def lengthMax : Nat := 4294967294

/-- A `Seq` value: a `uint32_t` sequence number. -/
def Seq := Nat

/-- `Seq::Universal() = 0`. -/
def Seq.Universal : Nat := 0

/-- `Seq::Invalid() = std::numeric_limits<uint32_t>::max()`. -/
def Seq.Invalid : Nat := 4294967295

/-- `Seq::LocalFirst() = (uint32_t)std::numeric_limits<int32_t>::max() + 1 = 2^31`. -/
def Seq.LocalFirst : Nat := 2147483648

/-- `Seq::Max() = std::numeric_limits<uint32_t>::max() - 1`. -/
def Seq.Max : Nat := 4294967294

/-- `Seq::isAcked(): *this < LocalFirst()`. -/
def Seq.isAcked (s : Nat) : Bool := s < Seq.LocalFirst

/-- `CharacterPosition` is an `int`; `Invalid` is `-1`.  Modelled as `Int`. -/
def CpInvalid : Int := -1

/-! ## `Adjustment` and `CpAdjustCp` (MergeTree.h lines 78-115) -/

/-- The `Adjustment` struct: `{ CharacterPosition cp; int32_t dcp; }`. -/
structure Adjustment where
  cp : Int
  dcp : Int
  deriving Repr, DecidableEq

/-- The `Stick` enum. -/
inductive Stick where
  | Left
  | Right
  deriving Repr, DecidableEq

/-- `CpAdjustCp(cp, adj, stick)`, translated clause for clause from
MergeTree.h lines 93-115. -/
def CpAdjustCp (cp : Int) (adj : Adjustment) (stick : Stick) : Int :=
  if cp < adj.cp ∨ adj.dcp = 0 then
    cp
  else if adj.dcp < 0 then
    if cp > adj.cp - adj.dcp then
      cp + adj.dcp
    else
      -- if we're in the deleted range, collapse to the beginning
      adj.cp
  else -- adj.dcp > 0
    if cp > adj.cp then
      cp + adj.dcp
    else if stick = Stick.Right then
      cp + adj.dcp
    else
      cp

/-! ## `TPartialLengths<32>` (PartialLengths.h) -/

/-- Block fanout: `Config::BlockSize() = 32`. -/
def BlockSize : Nat := 32

/-- The `TPartialLengths<32>` value: a count and the fixed 32-entry
`lengths` array (entries are `uint32_t` values; absent entries hold
`lengthNil`).  The `lens` list always has length 32. -/
structure PL where
  count : Nat
  lens : List Nat
  deriving Repr, DecidableEq

namespace PL

/-- The default constructor: count 0, all entries `lengthNil`. -/
def empty : PL := ⟨0, List.replicate BlockSize lengthNil⟩

/-- The range constructor `TPartialLengths(itB, itE)`: copies the given
entries and fills the rest with `lengthNil`. -/
def ofList (l : List Nat) : PL :=
  ⟨l.length, l ++ List.replicate (BlockSize - l.length) lengthNil⟩

/-- `std::upper_bound` over the whole 32-entry array (on the sorted arrays
the code maintains): index of the first entry greater than `x`. -/
def upperBound (l : List Nat) (x : Nat) : Nat :=
  (l.takeWhile (fun v => decide (v ≤ x))).length

/-- `TPartialLengths::FindResult`. -/
structure FindResult where
  index : Nat
  offset : Nat
  deriving Repr, DecidableEq

/-- `TPartialLengths::Find(offset)`: upper-bound search over the whole
array; if the bound is at the front, `(0, offset)`, else
`(i, offset - lengths[i-1])`. -/
def Find (pl : PL) (offset : Nat) : FindResult :=
  let i := upperBound pl.lens offset
  if i = 0 then ⟨0, offset⟩
  else ⟨i, offset - pl.lens.getD (i - 1) 0⟩

/-- `LengthAt(i) = lengths[i]`. -/
def LengthAt (pl : PL) (i : Nat) : Nat := pl.lens.getD i 0

/-- `TotalLength() = lengths[count - 1]` (the code asserts `count ≥ 1`
before using it; `count = 0` is guarded by the callers). -/
def TotalLength (pl : PL) : Nat := pl.lens.getD (pl.count - 1) 0

/-- `InsertColumn(index)`: shift entries at/after `index` right by one
(dropping the last), duplicate `lengths[index-1]` (or 0 at the front),
increment `count`. -/
def InsertColumn (pl : PL) (index : Nat) : PL :=
  { count := pl.count + 1
    lens := pl.lens.take index
              ++ [if index = 0 then 0 else pl.lens.getD (index - 1) 0]
              ++ (pl.lens.drop index).take (BlockSize - 1 - index) }

/-- `Update(index, length)`: starting at `index`, add `length` (uint32
wrap-around) to every entry until the first `lengthNil` entry. -/
def Update (pl : PL) (index : Nat) (length : Nat) : PL :=
  { pl with
    lens := pl.lens.take index
              ++ ((pl.lens.drop index).takeWhile (fun v => decide (v ≠ lengthNil))).map
                   (fun v => (v + length) % U32)
              ++ (pl.lens.drop index).dropWhile (fun v => decide (v ≠ lengthNil)) }

/-- `uint32_t` subtraction `a - b` (wrap-around). -/
def sub32 (a b : Nat) : Nat := (a + (U32 - b % U32)) % U32

/-- `SplitColumn(index, length)`: `InsertColumn(index + 1)` then
`lengths[index] -= length`. -/
def SplitColumn (pl : PL) (index : Nat) (length : Nat) : PL :=
  let pl := pl.InsertColumn (index + 1)
  { pl with lens := pl.lens.modify (fun v => sub32 v length) index }

/-- `Split(other)`: copy the upper half into `other`, subtracting
`lengths[BlockSize/2 - 1]` (via an `int` round trip, i.e. mod `2^32`);
fill the upper halves of both with `lengthNil`.  Neither count changes.
Returns `(this, other)`. -/
def Split (pl other : PL) : PL × PL :=
  let adjustment := pl.lens.getD (BlockSize / 2 - 1) 0
  let otherLens :=
    ((pl.lens.drop (BlockSize / 2)).map (fun v => sub32 v adjustment)).take (BlockSize / 2)
      ++ List.replicate (BlockSize / 2) lengthNil
  let thisLens := pl.lens.take (BlockSize / 2) ++ List.replicate (BlockSize / 2) lengthNil
  ({ pl with lens := thisLens }, { other with lens := otherLens })

/-- The sortedness half of `CheckInvariants`:
`std::is_sorted(lengths.begin(), lengths.end())` over the whole array
(equivalent to pairwise `≤` on this transitive reflexive order). -/
def Sorted (pl : PL) : Prop := pl.lens.Pairwise (· ≤ ·)

instance (pl : PL) : Decidable pl.Sorted := by
  unfold Sorted; infer_instance

/-- All entries are genuine `uint32_t` values (at most `lengthNil`). -/
def Bounded (pl : PL) : Prop := ∀ v ∈ pl.lens, v ≤ lengthNil

instance (pl : PL) : Decidable pl.Bounded := by
  unfold Bounded; infer_instance

/-- The remaining half of `CheckInvariants`: entries `[0, count)` are not
`lengthNil`, entries `[count, 32)` are `lengthNil`. -/
def NilOK (pl : PL) : Prop :=
  (∀ v ∈ pl.lens.take pl.count, v ≠ lengthNil) ∧
    (∀ v ∈ pl.lens.drop pl.count, v = lengthNil)

instance (pl : PL) : Decidable pl.NilOK := by
  unfold NilOK; infer_instance

/-- Well-formedness of a partial-length vector: the shape facts
(`lens` has the fixed size 32, `count` within capacity) together with
everything `CheckInvariants` asserts. -/
def WF (pl : PL) : Prop :=
  pl.lens.length = BlockSize ∧ pl.count ≤ BlockSize ∧
    pl.Sorted ∧ pl.Bounded ∧ pl.NilOK

instance (pl : PL) : Decidable pl.WF := by
  unfold WF; infer_instance

instance : Inhabited PL := ⟨PL.empty⟩

end PL

/-! ## Merge tree data model (MergeTree.h)

The pointer tree is embedded as an inductive value.  Object addresses
become ids (`segId` for segments, `blockId` for blocks); a `MergeNode*`
held across mutations becomes an id that is re-resolved to a path after
each structural change, exactly as the C++ code re-reads `parent` /
`index` after a restructuring call.  The `parent` back pointer itself is
the path from the root; the stored `index` field is kept as data, as in
the source.  Weak `Edit` references are edit ids; the expiry of a weak
reference when `ClearOldSequenceNumbers` drops the owning `shared_ptr`
is modelled by resetting the id at that moment (the retired edit's
`segmentsAdded` / `segmentsRemoved` lists enumerate exactly the segments
that reference it, which `splitAt` maintains). -/

/-- `MergeBlock::IdealNodesInBlock = MaxNodesInBlock * 3 / 4 = 24`. -/
def IdealNodesInBlock : Nat := 24

/-- `MergeBlock::MaxDepthImbalance = 2`. -/
def MaxDepthImbalance : Int := 2

/-- A `TextSegment` leaf.  `length` mirrors the stored `length` field
(kept equal to `text.length` by the code); `index` is the stored
`MergeNode::index`; `edAdded` / `edRemoved` are the weak `Edit` refs. -/
structure SegData where
  segId : Nat
  text : List Char
  length : Nat
  isDead : Bool
  edAdded : Option Nat
  edRemoved : Option Nat
  index : Int
  deriving Repr, DecidableEq, Inhabited

/-- `Segment::IsRemoved()`: the `edRemoved` weak reference locks. -/
def SegData.IsRemoved (s : SegData) : Bool := s.edRemoved.isSome

/-- A segment contributes to partial lengths iff
`!IsRemoved() && !isDead` (recomputeLengthsSlow). -/
def SegData.visible (s : SegData) : Bool := !s.IsRemoved && !s.isDead

/-- `MergeBlock::Stats`. -/
structure Stats where
  depthMin : Int := 0
  depthMax : Int := 0
  cDeadSegments : Int := 0
  deriving Repr, DecidableEq, Inhabited

/-- The own data of a `MergeBlock`: id (address), stored `index` field,
`lengths` and `stats`. -/
structure BlockData where
  blockId : Nat
  index : Int
  lengths : PL
  stats : Stats
  deriving Repr, DecidableEq, Inhabited

/-- A `MergeNode`: a `Segment` leaf or a `MergeBlock` with children. -/
inductive MNode where
  | seg : SegData → MNode
  | block : BlockData → List MNode → MNode
  deriving Repr, Inhabited

/-- `MergeNode::isLeaf`. -/
def MNode.isLeaf : MNode → Bool
  | .seg _ => true
  | .block _ _ => false

/-- The stored `MergeNode::index` field. -/
def MNode.nodeIndex : MNode → Int
  | .seg s => s.index
  | .block bd _ => bd.index

/-- Write the stored `index` field. -/
def MNode.setIndex : MNode → Int → MNode
  | .seg s, i => .seg { s with index := i }
  | .block bd cs, i => .block { bd with index := i } cs

/-- Child count of a block (`ChildCount()` reads `lengths.Count()`;
structurally this is the list length — the two agree in every state the
code builds, and the `lengths.Count()` reading is used where the code
does). -/
def MNode.childCount : MNode → Nat
  | .seg _ => 0
  | .block bd _ => bd.lengths.count

/-- What `recomputeLengthsSlow` reads from a child: a leaf contributes
`length` if `!IsRemoved() && !isDead` else 0; a block child contributes
its stored `lengths.TotalLength()`. -/
def childLenSlow : MNode → Nat
  | .seg s => if s.IsRemoved || s.isDead then 0 else s.length
  | .block bd _ => bd.lengths.TotalLength

/-- The running `uint32_t` prefix sums `lengths[i+1] = len + lengths[i]`
of `recomputeLengthsSlow`. -/
def slowSums : List MNode → Nat → List Nat
  | [], _ => []
  | c :: cs, acc =>
    let a := (childLenSlow c + acc) % U32
    a :: slowSums cs a

/-- `MergeBlock::recomputeLengthsSlow()`. -/
def recomputeLengthsSlow (cs : List MNode) : PL :=
  PL.ofList (slowSums cs 0)

/-- The fold of `recomputeStatsSlow` over block children: running
min/max of child depths plus one, and the sum of dead-segment counts. -/
def statsFoldBlocks (cs : List MNode) (st : Stats) : Stats :=
  cs.foldl
    (fun st c =>
      match c with
      | .block bd _ =>
          { depthMin := min st.depthMin (bd.stats.depthMin + 1)
            depthMax := max st.depthMax (bd.stats.depthMax + 1)
            cDeadSegments := st.cDeadSegments + bd.stats.cDeadSegments }
      | .seg _ => st)  -- mixed leaf among block children cannot occur
    st

/-- `MergeBlock::recomputeStatsSlow()`.  `count` is the block's
`ChildCount()` (its `lengths.Count()` at the moment of the call). -/
def recomputeStatsSlow (count : Nat) (cs : List MNode) : Stats :=
  let stats :=
    match cs with
    | [] => ({} : Stats)  -- C++ reads `children[0]` here; unreachable
    | c0 :: _ =>
      if !c0.isLeaf then
        let init : Stats :=
          { depthMin := (match c0 with
                          | .block bd _ => bd.stats.depthMin + 1
                          | .seg _ => 0)
            depthMax := 0, cDeadSegments := 0 }
        statsFoldBlocks cs init
      else
        { depthMin := 1, depthMax := 1
          cDeadSegments := (cs.filter (fun c =>
            match c with
            | .seg s => s.isDead
            | .block _ _ => false)).length }
  let stats := if count = 0 then { stats with depthMax := 0 } else stats
  if count < IdealNodesInBlock then { stats with depthMin := 0 } else stats

/-- The `MergeBlock(b, e)` range constructor: plant the children (fixing
their stored `index` fields), then recompute lengths and stats from
scratch.  `bid` models the fresh address. -/
def mkBlock (bid : Nat) (cs : List MNode) : MNode :=
  let cs := cs.mapIdx (fun i c => c.setIndex i)
  let lengths := recomputeLengthsSlow cs
  let stats := recomputeStatsSlow lengths.count cs
  .block ⟨bid, -1, lengths, stats⟩ cs

/-! ### Traversal and paths -/

/- In-order segment sequence (what `MergeNodeIterator` enumerates,
restricted to leaves, i.e. `RawSegmentIterator`). -/
mutual
def flattenRaw : MNode → List SegData
  | .seg s => [s]
  | .block _ cs => flattenRawList cs
def flattenRawList : List MNode → List SegData
  | [] => []
  | c :: cs => flattenRaw c ++ flattenRawList cs
end

/-- The visible character sequence of a (sub)tree: concatenated text of
visible segments in traversal order. -/
def docOf (n : MNode) : List Char :=
  (((flattenRaw n).filter SegData.visible).map SegData.text).join

/-- A path of child indices from a node down to a descendant. -/
abbrev Path := List Nat

def getNodeAt : MNode → Path → Option MNode
  | n, [] => some n
  | MNode.block _ cs, i :: p => (cs.get? i).bind (fun c => getNodeAt c p)
  | MNode.seg _, _ :: _ => none

def modifyAt : MNode → Path → (MNode → MNode) → MNode
  | n, [], f => f n
  | MNode.block bd cs, i :: p, f =>
      MNode.block bd (cs.modify (fun c => modifyAt c p f) i)
  | n, _ :: _, _ => n

/-- `MergeNode::updateParentLengths(length)` for the node at `p`: every
block strictly above it applies `lengths.Update(child->index, length)`
(`length` is the `uint32_t` image of the delta). -/
def updAncestors : MNode → Path → Nat → MNode
  | MNode.block bd cs, i :: p, d =>
      let idx := ((cs.getD i default).nodeIndex).toNat
      let bd := { bd with lengths := bd.lengths.Update idx d }
      match p with
      | [] => MNode.block bd cs
      | _ :: _ => MNode.block bd (cs.modify (fun c => updAncestors c p d) i)
  | n, _, _ => n

/- Resolve a segment id (a `Segment*`) to its path. -/
mutual
def findSegPath : MNode → Nat → Option Path
  | .seg s, sid => if s.segId = sid then some [] else none
  | .block _ cs, sid => findSegPathList cs sid 0
def findSegPathList : List MNode → Nat → Nat → Option Path
  | [], _, _ => none
  | c :: cs, sid, i =>
    match findSegPath c sid with
    | some p => some (i :: p)
    | none => findSegPathList cs sid (i + 1)
end

/- Resolve a block id (a `MergeBlock*`) to its path. -/
mutual
def findBlockPath : MNode → Nat → Option Path
  | .seg _, _ => none
  | .block bd cs, bid =>
    if bd.blockId = bid then some [] else findBlockPathList cs bid 0
def findBlockPathList : List MNode → Nat → Nat → Option Path
  | [], _, _ => none
  | c :: cs, bid, i =>
    match findBlockPath c bid with
    | some p => some (i :: p)
    | none => findBlockPathList cs bid (i + 1)
end

/-! ## Edits, tree state, messages (MergeTree.h, Messages.h) -/

/-- The `Edit` record.  `adjCp`/`adjDcp` is the `Adjustment`
(`cp = Invalid = -1` until `Replace` sets it; `dcp` is uninitialised in
the C++ constructor and modelled as 0).  The segment lists hold weak
references, i.e. segment ids. -/
structure EditRec where
  editId : Nat
  seq : Nat
  client : Nat
  segmentsAdded : List Nat
  segmentsRemoved : List Nat
  adjCp : Int
  adjDcp : Int
  deriving Repr, DecidableEq, Inhabited

/-- The `MergeTree` object plus the id supplies that model heap
addresses.  `edits` is `m_edits` (acknowledged queue, oldest first),
`editsLocal` is `m_editsLocal`. -/
structure MTree where
  root : MNode
  edits : List EditRec
  editsLocal : List EditRec
  clientSeqNext : Nat
  clientLocal : Nat
  nextSegId : Nat
  nextBlockId : Nat
  nextEditId : Nat
  deriving Repr, Inhabited

/-- Mutate the (unique) live edit with the given id, in whichever queue
it lives.  An id in neither queue is a dead weak reference: no-op. -/
def editsMap (st : MTree) (eid : Nat) (f : EditRec → EditRec) : MTree :=
  { st with
    edits := st.edits.map (fun e => if e.editId = eid then f e else e)
    editsLocal := st.editsLocal.map (fun e => if e.editId = eid then f e else e) }

/-- Message contents (`MergeTreeInsertMsg` / `MergeTreeRemoveMsg`;
`MergeTreeGroupMsg` is never built by this code and is omitted). -/
inductive MsgContents where
  | insert (pos1 pos2 : Int) (text : List Char)
  | remove (pos1 pos2 : Int)
  deriving Repr, DecidableEq, Inhabited

/-- `Message`. -/
structure Message where
  clientSeq : Nat
  refSeq : Nat
  contents : MsgContents
  deriving Repr, DecidableEq, Inhabited

/-- `SequencedMessage`. -/
structure SMsg where
  msg : Message
  seq : Nat
  minSeq : Nat
  clientId : Nat
  deriving Repr, DecidableEq, Inhabited

/-! ## Structural block operations (adopt / split / ensureExtraCapacity) -/

/-- `MergeBlock::adopt(newNode, childIndex, fWasSplit)` on the block at
`bpath`, including the `updateParentLengths` climb for a fresh leaf. -/
def adoptAt (root : MNode) (bpath : Path) (newNode : MNode)
    (childIndex : Nat) (fWasSplit : Bool) : MNode :=
  let root := modifyAt root bpath (fun b =>
    match b with
    | .seg _ => b
    | .block bd cs =>
      -- shift children at/after childIndex right by one, fixing indices
      let cs := cs.take childIndex
                  ++ [newNode.setIndex childIndex]
                  ++ (cs.drop childIndex).mapIdx
                       (fun j c => c.setIndex (childIndex + 1 + j))
      -- stats update (reads ChildCount() before lengths change)
      let stats := bd.stats
      let stats :=
        match newNode with
        | .block nbd _ =>
          let stats :=
            if bd.lengths.count = 0 ∨ nbd.stats.depthMin + 1 > stats.depthMin
            then { stats with depthMin := nbd.stats.depthMin + 1 } else stats
          let stats :=
            { stats with depthMax := max stats.depthMax (nbd.stats.depthMax + 1) }
          if !fWasSplit then
            { stats with
              cDeadSegments := stats.cDeadSegments + nbd.stats.cDeadSegments }
          else stats
        | .seg _ =>
          { stats with depthMin := 1, depthMax := max stats.depthMax 1 }
      let stats :=
        if bd.lengths.count + 1 < IdealNodesInBlock
        then { stats with depthMin := 0 } else stats
      -- lengths update
      let lengths :=
        if !fWasSplit then
          match newNode with
          | .seg s => (bd.lengths.InsertColumn childIndex).Update childIndex s.length
          | .block _ _ => recomputeLengthsSlow cs    -- root-split case
        else
          match newNode with
          | .seg s => bd.lengths.SplitColumn (childIndex - 1) s.length
          | .block _ _ => recomputeLengthsSlow cs
      .block { bd with lengths := lengths, stats := stats } cs)
  -- `updateParentLengths(segment->length)` for adopted fresh leaves
  match newNode, fWasSplit with
  | .seg s, false => updAncestors root bpath (s.length % U32)
  | _, _ => root

/-- `MergeBlock::split()` on the block at `bpath`: keep the lower half,
build a fresh block from the upper half, have the parent adopt it at
`index + 1` with `fWasSplit = true`. -/
def splitBlockAt (root : MNode) (bpath : Path) (nextBid : Nat) : MNode × Nat :=
  match getNodeAt root bpath with
  | some (.block bd cs) =>
    let keep := cs.take (BlockSize / 2)
    let newBlock := mkBlock nextBid (cs.drop (BlockSize / 2))
    let root := modifyAt root bpath (fun b =>
      match b with
      | .block bd _ =>
        let lengths := recomputeLengthsSlow keep
        let stats := recomputeStatsSlow lengths.count keep
        .block { bd with lengths := lengths, stats := stats } keep
      | b => b)
    (adoptAt root bpath.dropLast newBlock (bd.index.toNat + 1) true, nextBid + 1)
  | _ => (root, nextBid)

/-- `MergeBlock::ensureExtraCapacity(cNew)` on the block at `bpath`.
The root case clones the root's children into a fresh single child and
splits that child; otherwise the parent first makes room and this block
splits.  After the recursive call the block is re-resolved by id, as
the C++ code re-reads the relocated `this`/`parent` pointers. -/
def ensureExtraAux : Nat → MNode → Path → Nat → Nat → MNode × Nat
  | 0, root, _, _, nextBid => (root, nextBid)
  | fuel + 1, root, bpath, cNew, nextBid =>
    match getNodeAt root bpath with
    | some (.block bd cs) =>
      if cNew + bd.lengths.count > BlockSize then
        match bpath with
        | [] =>
          let newBlock := mkBlock nextBid cs
          let root := modifyAt root [] (fun b =>
            match b with
            | .block bd _ => .block { bd with lengths := PL.empty, stats := {} } []
            | b => b)
          let root := adoptAt root [] newBlock 0 false
          splitBlockAt root [0] (nextBid + 1)
        | i :: rest =>
          let bid := bd.blockId
          let r := ensureExtraAux fuel root ((i :: rest).dropLast) 1 nextBid
          match findBlockPath r.1 bid with
          | some p => splitBlockAt r.1 p r.2
          | none => r
      else (root, nextBid)
    | _ => (root, nextBid)

/-- Entry point: the parent-chain recursion is bounded by the depth of
the starting block, i.e. the length of its path. -/
def ensureExtra (root : MNode) (bpath : Path) (cNew : Nat) (nextBid : Nat) :
    MNode × Nat :=
  ensureExtraAux (bpath.length + 1) root bpath cNew nextBid

/-! ## find / findAndSplit / Replace (MergeTree.h lines 726-850) -/

/- `MergeTree::find`'s descent: at each block consult
`lengths.Find(residual offset)` and recurse into that child; at a leaf
return the path, the segment and the offset within it. -/
mutual
def findInNode : MNode → Nat → Option (Path × SegData × Nat)
  | .seg s, off => some ([], s, off)
  | .block bd cs, off =>
    let r := bd.lengths.Find off
    (findInList cs r.index r.offset).map
      (fun x => (r.index :: x.1, x.2.1, x.2.2))
def findInList : List MNode → Nat → Nat → Option (Path × SegData × Nat)
  | [], _, _ => none
  | c :: _, 0, off => findInNode c off
  | _ :: cs, i + 1, off => findInList cs i off
end

/-- `MergeTree::CpMac()`. -/
def CpMacOf (st : MTree) : Nat :=
  match st.root with
  | .block bd _ => if bd.lengths.count = 0 then 0 else bd.lengths.TotalLength
  | .seg _ => 0

/-- `MergeTree::find(cp)`: the end iterator at `cp = CpMac()`. -/
def treeFind (st : MTree) (cp : Nat) : Option (Path × SegData × Nat) :=
  if cp = CpMacOf st then none else findInNode st.root cp

/-- `SegmentIterator::Next()` from the segment with id `sid`: the next
leaf in traversal order whose `IsRemoved()` is false (dead segments are
NOT skipped: the iterator tests only `IsRemoved`). -/
def iterNext (root : MNode) (sid : Nat) : Option Nat :=
  match (flattenRaw root).dropWhile (fun s => decide (s.segId ≠ sid)) with
  | [] => none
  | _ :: rest => (rest.find? (fun s => !s.IsRemoved)).map (fun s => s.segId)

/-- `MergeTree::findAndSplit(cp)`: returns the (possibly restructured)
tree and the iterator — `none` for the end iterator, else the id of the
segment that starts at `cp`.  When `cp` falls strictly inside a segment,
the parent first ensures capacity, the segment is split in place
(`TextSegment::splitAt`, which registers the new half with the live
edits that reference it) and the parent adopts the right half. -/
def findAndSplit (st : MTree) (cp : Nat) : MTree × Option Nat :=
  match treeFind st cp with
  | none => (st, none)
  | some (_, s, off) =>
    if off = 0 then (st, some s.segId)
    else
      match findSegPath st.root s.segId with
      | none => (st, none)
      | some p0 =>
        let (root, nb) := ensureExtra st.root p0.dropLast 1 st.nextBlockId
        let st := { st with root := root, nextBlockId := nb }
        match findSegPath st.root s.segId with
        | none => (st, none)
        | some p =>
          -- TextSegment::splitAt(off): truncate in place, copy the rest
          let newSid := st.nextSegId
          let newSeg : SegData :=
            { segId := newSid, text := s.text.drop off
              length := (s.text.drop off).length
              isDead := s.isDead, edAdded := s.edAdded
              edRemoved := s.edRemoved, index := s.index }
          let root := modifyAt st.root p (fun n =>
            match n with
            | .seg s => .seg { s with text := s.text.take off, length := off }
            | n => n)
          let st := { st with root := root, nextSegId := newSid + 1 }
          let st :=
            match s.edAdded with
            | some eid => editsMap st eid (fun e =>
                { e with segmentsAdded := e.segmentsAdded ++ [newSid] })
            | none => st
          let st :=
            match s.edRemoved with
            | some eid => editsMap st eid (fun e =>
                { e with segmentsRemoved := e.segmentsRemoved ++ [newSid] })
            | none => st
          -- parent->adopt(newSeg, segment->index + 1, fSplit = true)
          let idx := match getNodeAt st.root p with
                     | some n => n.nodeIndex.toNat
                     | none => 0
          ({ st with root := adoptAt st.root p.dropLast (.seg newSeg) (idx + 1) true },
           some newSid)

/-- The tombstoning loop of `Replace`: walk `[it0, itEnd)`, setting
`edRemoved`, propagating `-length` up the ancestors and recording the
segment in the edit. -/
def tombstoneLoop (fuel : Nat) (st : MTree) (eid : Nat)
    (it0 itEnd : Option Nat) : MTree :=
  match fuel with
  | 0 => st
  | fuel + 1 =>
    if it0 = itEnd then st
    else
      match it0 with
      | none => st
      | some sid =>
        match findSegPath st.root sid with
        | none => st
        | some p =>
          let len := match getNodeAt st.root p with
                     | some (.seg s) => s.length
                     | _ => 0
          let root := modifyAt st.root p (fun n =>
            match n with
            | .seg s => .seg { s with edRemoved := some eid }
            | n => n)
          let root := updAncestors root p ((U32 - len % U32) % U32)
          let st := editsMap { st with root := root } eid (fun e =>
            { e with segmentsRemoved := e.segmentsRemoved ++ [sid] })
          tombstoneLoop fuel st eid (iterNext st.root sid) itEnd

/-- The `while (parent->ChildCount() > 0 && !parent->children[0]->isLeaf)`
descent of `Replace`'s append case: path to the rightmost leaf-bearing
block. -/
def descendRightmost (fuel : Nat) (n : MNode) : Path :=
  match fuel with
  | 0 => []
  | fuel + 1 =>
    match n with
    | .seg _ => []
    | .block bd cs =>
      if bd.lengths.count > 0 && !(cs.headD default).isLeaf then
        let i := bd.lengths.count - 1
        match cs.get? i with
        | some c => i :: descendRightmost fuel c
        | none => []
      else []

/-- The insertion step of `Replace` (text nonempty): create the new
`TextSegment`, record it in the edit, and adopt it left of `itEnd` (or
append at the rightmost leaf-bearing block when `itEnd` is the end). -/
def insertNewSegment (st : MTree) (eid : Nat) (text : List Char)
    (itEnd : Option Nat) : MTree :=
  let sid := st.nextSegId
  let newSeg : SegData :=
    { segId := sid, text := text, length := text.length, isDead := false
      edAdded := some eid, edRemoved := none, index := -1 }
  let st := { st with nextSegId := sid + 1 }
  let st := editsMap st eid (fun e =>
    { e with segmentsAdded := e.segmentsAdded ++ [sid] })
  match itEnd with
  | none =>
    let ppath := descendRightmost ((flattenRaw st.root).length + 1) st.root
    match getNodeAt st.root ppath with
    | some (.block bd cs) =>
      if bd.lengths.count = BlockSize then
        -- the "slightly complicated dance": track the last child across
        -- the possible split of its parent
        match cs.getD (bd.lengths.count - 1) default with
        | .seg ls =>
          let (root, nb) := ensureExtra st.root ppath 1 st.nextBlockId
          let st := { st with root := root, nextBlockId := nb }
          match findSegPath st.root ls.segId with
          | some q =>
            let pp := q.dropLast
            let cnt := match getNodeAt st.root pp with
                       | some (.block bd2 _) => bd2.lengths.count
                       | _ => 0
            { st with root := adoptAt st.root pp (.seg newSeg) cnt false }
          | none => st
        | .block _ _ => st   -- children of ppath are leaves by the descent
      else
        { st with
          root := adoptAt st.root ppath (.seg newSeg) bd.lengths.count false }
    | _ => st
  | some sid2 =>
    match findSegPath st.root sid2 with
    | some p =>
      let (root, nb) := ensureExtra st.root p.dropLast 1 st.nextBlockId
      let st := { st with root := root, nextBlockId := nb }
      match findSegPath st.root sid2 with
      | some p2 =>
        let idx := match getNodeAt st.root p2 with
                   | some n => n.nodeIndex.toNat
                   | none => 0
        { st with root := adoptAt st.root p2.dropLast (.seg newSeg) idx false }
      | none => st
    | none => st

/-- The body of `MergeTree::Replace` shared by local and remote edits
(the supplied edit is `eid`). -/
def ReplaceCore (st : MTree) (cp dcp : Nat) (text : List Char) (eid : Nat) :
    MTree :=
  let (st, itEnd) := findAndSplit st (cp + dcp)
  let st :=
    if dcp > 0 then
      let (st, it0) := findAndSplit st cp
      tombstoneLoop ((flattenRaw st.root).length + 1) st eid it0 itEnd
    else st
  let st := if text.length > 0 then insertNewSegment st eid text itEnd else st
  editsMap st eid (fun e =>
    { e with adjCp := (cp : Int), adjDcp := (text.length : Int) - (dcp : Int) })

/-- `MergeTree::StartLocalEdit()`. -/
def StartLocalEdit (st : MTree) : MTree :=
  let ed : EditRec :=
    { editId := st.nextEditId, seq := st.clientSeqNext, client := st.clientLocal
      segmentsAdded := [], segmentsRemoved := [], adjCp := CpInvalid, adjDcp := 0 }
  { st with editsLocal := st.editsLocal ++ [ed]
            clientSeqNext := st.clientSeqNext + 1
            nextEditId := st.nextEditId + 1 }

/-- `MergeTree::SendReplaceOp`: builds the Insert message when the edit
added at least one segment; otherwise the `assert(false)` branch is
reached and nothing is sent (`none`). -/
def SendReplaceOp (st : MTree) (cp dcp : Nat) (text : List Char) (eid : Nat) :
    Option Message :=
  match (st.editsLocal ++ st.edits).find? (fun e => decide (e.editId = eid)) with
  | some ed =>
    if ed.segmentsAdded.length > 0 then
      some { clientSeq := ed.seq
             refSeq := match st.edits.getLast? with
                       | some e => e.seq
                       | none => Seq.Universal
             contents := .insert (cp : Int) ((cp : Int) + (dcp : Int)) text }
    else none
  | none => none

/-- A local `Replace(cp, dcp, text)` (no edit supplied): allocate the
edit, run the shared body, and attempt to send.  Returns the new tree
and the outbound message (`none` exactly when `SendReplaceOp` hit its
`assert(false)` branch). -/
def ReplaceLocal (st : MTree) (cp dcp : Nat) (text : List Char) :
    MTree × Option Message :=
  let st := StartLocalEdit st
  let eid := st.nextEditId - 1
  let st := ReplaceCore st cp dcp text eid
  (st, SendReplaceOp st cp dcp text eid)

/-! ## Tardis translation, reconciliation (MergeTree.h lines 875-1004) -/

/-- `TardisRangeToServerTip`: adjust through acknowledged edits with
sequence above `refSeq` (the queue is sorted; `upper_bound` is the drop
of the `≤ refSeq` prefix), skipping the sender's own edits; Right
stickiness. -/
def TardisRangeToServerTip (st : MTree) (cps : Int × Int) (refSeq : Nat)
    (client : Nat) : Int × Int :=
  if st.edits.length = 0 then cps
  else
    (st.edits.dropWhile (fun e => decide (e.seq ≤ refSeq))).foldl
      (fun c e =>
        if e.client = client then c
        else (CpAdjustCp c.1 ⟨e.adjCp, e.adjDcp⟩ .Right,
              CpAdjustCp c.2 ⟨e.adjCp, e.adjDcp⟩ .Right))
      cps

/-- `TardisServerRangeToLocal`: adjust through the pending local edits,
Left stickiness. -/
def TardisServerRangeToLocal (st : MTree) (cps : Int × Int) : Int × Int :=
  st.editsLocal.foldl
    (fun c e =>
      (CpAdjustCp c.1 ⟨e.adjCp, e.adjDcp⟩ .Left,
       CpAdjustCp c.2 ⟨e.adjCp, e.adjDcp⟩ .Left))
    cps

/-- `RebaseLocalEdits(cp, dcp)`: shift the adjustment origin of every
pending local edit through the remote edit, Right stickiness. -/
def RebaseLocalEdits (st : MTree) (cp dcp : Int) : MTree :=
  { st with
    editsLocal := st.editsLocal.map (fun e =>
      { e with adjCp := CpAdjustCp e.adjCp ⟨cp, dcp⟩ .Right }) }

/- Reset `edAdded` on the segment with the given id (settlement of an
added segment: it is now universal). -/
mutual
def clearAdded : MNode → Nat → MNode
  | .seg s, sid =>
    if s.segId = sid then .seg { s with edAdded := none } else .seg s
  | .block bd cs, sid => .block bd (clearAddedList cs sid)
def clearAddedList : List MNode → Nat → List MNode
  | [], _ => []
  | c :: cs, sid => clearAdded c sid :: clearAddedList cs sid
end

/- Settlement of a removed segment: set `isDead`, bump
`cDeadSegments` on every ancestor block, and model the expiry of the
weak `edRemoved` reference (the owning `shared_ptr<Edit>` is about to be
destroyed) by resetting it. -/
mutual
def markDead : MNode → Nat → MNode × Bool
  | .seg s, sid =>
    if s.segId = sid
    then (.seg { s with isDead := true, edRemoved := none }, true)
    else (.seg s, false)
  | .block bd cs, sid =>
    let r := markDeadList cs sid
    if r.2 then
      (.block { bd with stats :=
          { bd.stats with cDeadSegments := bd.stats.cDeadSegments + 1 } } r.1,
       true)
    else (.block bd r.1, false)
def markDeadList : List MNode → Nat → List MNode × Bool
  | [], _ => ([], false)
  | c :: cs, sid =>
    let r1 := markDead c sid
    let r2 := markDeadList cs sid
    (r1.1 :: r2.1, r1.2 || r2.2)
end

/-- Retire one settled edit (the body of the `ClearOldSequenceNumbers`
loop). -/
def retireEdit (st : MTree) (ed : EditRec) : MTree :=
  let root := ed.segmentsAdded.foldl (fun r sid => clearAdded r sid) st.root
  let root := ed.segmentsRemoved.foldl (fun r sid => (markDead r sid).1) root
  { st with root := root }

/-- `MergeTree::ClearOldSequenceNumbers(minSeq)`: retire every leading
acknowledged edit with `minSeq > seq`, then erase them. -/
def ClearOldSequenceNumbers (st : MTree) (minSeq : Nat) : MTree :=
  let retired := st.edits.takeWhile (fun e => decide (minSeq > e.seq))
  let rest := st.edits.dropWhile (fun e => decide (minSeq > e.seq))
  let st := retired.foldl retireEdit st
  { st with edits := rest }

/-- `MergeTree::OnMessageReceived(msg)`. -/
def OnMessageReceived (st : MTree) (sm : SMsg) : MTree :=
  let st :=
    if sm.clientId = st.clientLocal then
      -- acknowledgement of the head local edit
      match st.editsLocal with
      | [] => st   -- C++ reads front() of an empty deque; unreachable
      | ed :: rest =>
        { st with edits := st.edits ++ [{ ed with seq := sm.seq }]
                  editsLocal := rest }
    else
      match sm.msg.contents with
      | .insert pos1 pos2 text =>
        let cp0 := pos1
        let cp1 := if pos2 ≠ CpInvalid then pos2 else cp0
        let c := TardisRangeToServerTip st (cp0, cp1) sm.msg.refSeq sm.clientId
        let c := TardisServerRangeToLocal st c
        let eid := st.nextEditId
        let ed : EditRec :=
          { editId := eid, seq := sm.seq, client := sm.clientId
            segmentsAdded := [], segmentsRemoved := []
            adjCp := CpInvalid, adjDcp := 0 }
        let st := { st with edits := st.edits ++ [ed], nextEditId := eid + 1 }
        let dcpRem : Int := c.2 - c.1
        let st := ReplaceCore st c.1.toNat dcpRem.toNat text eid
        RebaseLocalEdits st c.2 (dcpRem + text.length)
      | .remove _ _ => st   -- assert(false): Remove/Group are reserved
  ClearOldSequenceNumbers st sm.minSeq

/-! ## Routers (Router.h) and test worlds -/

/-- A fresh `MergeTree` attached to a router endpoint with the given
local client id. -/
def newTree (client : Nat) : MTree :=
  { root := .block ⟨0, -1, PL.empty, {}⟩ [], edits := [], editsLocal := []
    clientSeqNext := 1000, clientLocal := client
    nextSegId := 0, nextBlockId := 1, nextEditId := 0 }

/-- `SimpleLoopbackRouter` plus its single listening tree.  The local
client id is `ClientId::Create(7)`. -/
structure LoopWorld where
  tree : MTree
  seq : Nat
  maxQueueLength : Nat
  queue : List SMsg
  deriving Repr, Inhabited

def newLoopWorld : LoopWorld :=
  { tree := newTree 7, seq := 0, maxQueueLength := 0, queue := [] }

/-- The delivery loop of `SimpleLoopbackRouter::Send`:
`while (queue.size() > maxQueueLength)` deliver the front. -/
def loopDeliver : Nat → LoopWorld → LoopWorld
  | 0, w => w
  | fuel + 1, w =>
    if w.queue.length > w.maxQueueLength then
      match w.queue with
      | [] => w
      | h :: t =>
        loopDeliver fuel { w with tree := OnMessageReceived w.tree h, queue := t }
    else w

/-- `SimpleLoopbackRouter::Send`: sequence the message (with
`minimumSequenceNumber` equal to its own sequence number) and flush. -/
def loopSend (w : LoopWorld) (m : Message) : LoopWorld :=
  let smsg : SMsg := { msg := m, seq := w.seq, minSeq := w.seq, clientId := 7 }
  let w := { w with queue := w.queue ++ [smsg], seq := w.seq + 1 }
  loopDeliver w.queue.length w

/-- A local `Replace` against the loopback router. -/
def LoopWorld.Replace (w : LoopWorld) (cp dcp : Nat) (text : List Char) :
    LoopWorld :=
  match ReplaceLocal w.tree cp dcp text with
  | (st, some m) => loopSend { w with tree := st } m
  | (st, none) => { w with tree := st }

/-- `MultiClientRouter<N>` with its `N` listening trees (endpoint `i`
has client id `i + 10`; `minimumSequenceNumber` is hardwired to
`Universal`). -/
structure MultiWorld where
  seqNext : Nat
  msgs : List SMsg
  trees : List MTree
  deriving Repr, Inhabited

def mkMultiWorld (n : Nat) : MultiWorld :=
  { seqNext := 1, msgs := [], trees := (List.range n).map (fun i => newTree (i + 10)) }

/-- A local `Replace` on endpoint `i` of the multi-client router: the
outbound message is sequenced and buffered. -/
def MultiWorld.Replace (w : MultiWorld) (i : Nat) (cp dcp : Nat)
    (text : List Char) : MultiWorld :=
  match w.trees.get? i with
  | none => w
  | some t =>
    match ReplaceLocal t cp dcp text with
    | (t, none) => { w with trees := w.trees.set i t }
    | (t, some m) =>
      { w with trees := w.trees.set i t
               msgs := w.msgs ++ [{ msg := m, seq := w.seqNext
                                    minSeq := Seq.Universal, clientId := i + 10 }]
               seqNext := w.seqNext + 1 }

/-- `MultiClientRouter::PumpMessages()`: deliver every buffered message
to every listener in order. -/
def MultiWorld.Pump (w : MultiWorld) : MultiWorld :=
  { w with
    trees := w.msgs.foldl (fun ts m => ts.map (fun t => OnMessageReceived t m)) w.trees
    msgs := [] }

/-! ## ReloadFromSegments (MergeTree.h lines 1006-1037) -/

/-- One packing round of `ReloadBlockFromNodes`: group consecutive runs
of `MaxNodesInBlock` nodes into fresh blocks. -/
def packRoundAux : Nat → List MNode → Nat → List MNode × Nat
  | 0, _, bid => ([], bid)
  | _, [], bid => ([], bid)
  | fuel + 1, c0 :: rest, bid =>
    let r := packRoundAux fuel ((c0 :: rest).drop BlockSize) (bid + 1)
    (mkBlock bid ((c0 :: rest).take BlockSize) :: r.1, r.2)

/-- One packing round of `ReloadBlockFromNodes` (the chunk count is
bounded by the node count). -/
def packRound (nodes : List MNode) (bid : Nat) : List MNode × Nat :=
  packRoundAux nodes.length nodes bid

/-- The `while (nodes.size() > MaxNodesInBlock)` loop. -/
def reloadLoop : Nat → List MNode → Nat → List MNode × Nat
  | 0, nodes, bid => (nodes, bid)
  | fuel + 1, nodes, bid =>
    if nodes.length > BlockSize then
      let r := packRound nodes bid
      reloadLoop fuel r.1 r.2
    else (nodes, bid)

/-- `MergeTree::ReloadBlockFromNodes(rootBlock, nodes)`: repack and
move-assign into the block at `bpath` (which keeps its identity).
Fresh blocks are numbered from 1 (the model of fresh addresses used by
both the initial reload and the arborist rebuild).  Returns the new
root and the follow-on block id. -/
def ReloadBlockFromNodes (root : MNode) (bpath : Path) (nodes : List MNode) :
    MNode × Nat :=
  let r := reloadLoop nodes.length nodes 1
  let cs := r.1.mapIdx (fun i c => c.setIndex i)
  let lengths := recomputeLengthsSlow cs
  let stats := recomputeStatsSlow lengths.count cs
  (modifyAt root bpath (fun b =>
    match b with
    | .block bd _ => .block { bd with lengths := lengths, stats := stats } cs
    | b => b), r.2)

/-- `MergeTree::ReloadFromSegments(segments)`: build a fresh root. -/
def ReloadFromSegments (st : MTree) (segs : List SegData) : MTree :=
  let root0 : MNode := .block ⟨0, -1, PL.empty, {}⟩ []
  let r := ReloadBlockFromNodes root0 [] (segs.map .seg)
  { st with root := r.1, nextBlockId := r.2 }

/-- Build `TextSegment`s from the given texts (the test harness's
`make_shared<TextSegment>(...)` loop) and reload. -/
def loadTexts (st : MTree) (texts : List (List Char)) : MTree :=
  let segs := texts.mapIdx (fun i t =>
    { segId := st.nextSegId + i, text := t, length := t.length
      isDead := false, edAdded := none, edRemoved := none
      index := -1 : SegData })
  let st := { st with nextSegId := st.nextSegId + texts.length }
  ReloadFromSegments st segs

/-! ## The arborist (MergeTree.h lines 1039-1122) -/

/-- `MergeBlock::IsUnbalanced()`. -/
def MNode.IsUnbalanced : MNode → Bool
  | .block bd _ => bd.stats.depthMax - bd.stats.depthMin > MaxDepthImbalance
  | .seg _ => false

/-- `MergeTree::FindRebalancePoint`: descend into the first unbalanced
child block; if no child is unbalanced (or children are leaves), the
current block is the rebalance point. -/
def findRebalancePoint (fuel : Nat) (n : MNode) : Path :=
  match fuel with
  | 0 => []
  | fuel + 1 =>
    match n with
    | .seg _ => []
    | .block _ cs =>
      match cs.findIdx? MNode.IsUnbalanced with
      | some i =>
        match cs.get? i with
        | some c => i :: findRebalancePoint fuel c
        | none => []
      | none => []

/-- One iteration of the `RunArborist` loop: find the rebalance point,
extract its segments (`GetSegments`), prune the dead ones, rebuild
(`ReloadBlockFromNodes`), and recompute the stats of every ancestor
bottom-up. -/
def arboristStep (st : MTree) : MTree :=
  let p := findRebalancePoint ((flattenRaw st.root).length + 1) st.root
  match getNodeAt st.root p with
  | some sub =>
    let nodes := ((flattenRaw sub).filter (fun s => !s.isDead)).map MNode.seg
    let r := ReloadBlockFromNodes st.root p nodes
    let root := ((List.range p.length).reverse.map (fun k => p.take k)).foldl
      (fun rt q => modifyAt rt q (fun b =>
        match b with
        | .block bd cs =>
          .block { bd with stats := recomputeStatsSlow bd.lengths.count cs } cs
        | b => b))
      r.1
    { st with root := root, nextBlockId := r.2 }
  | none => st

/-- `MergeTree::RunArborist(fKeepGoing)` with `fKeepGoing` held `true`
by the caller (nothing inside the loop ever changes it): the loop runs
while the root is unbalanced.  `fuel` counts loop iterations; `none`
means the loop was still running when the fuel ran out. -/
def RunArborist : Nat → MTree → Option MTree
  | 0, st => if st.root.IsUnbalanced then none else some st
  | fuel + 1, st =>
    if st.root.IsUnbalanced then RunArborist fuel (arboristStep st)
    else some st

/-- `MergeTree::RunMaintenance` simply runs the arborist. -/
def RunMaintenance : Nat → MTree → Option MTree := RunArborist

/-! ## Fetch and the concatenated document (MergeTree.h lines 765-778) -/

/-- `MergeTree::Fetch(cp)`: the run of characters starting at `cp`
(the found segment's text from the offset on). -/
def Fetch (st : MTree) (cp : Nat) : List Char :=
  match findInNode st.root cp with
  | some (_, s, off) => s.text.drop off
  | none => []

/-- The concatenated-fetch walk of the tests (`AssertDoc`): fetch runs
from 0 to `CpMac`, concatenating. -/
def fetchDocAux : Nat → MTree → Nat → List Char
  | 0, _, _ => []
  | fuel + 1, st, cp =>
    if cp < CpMacOf st then
      let run := Fetch st cp
      run ++ fetchDocAux fuel st (cp + run.length)
    else []

def fetchDoc (st : MTree) : List Char := fetchDocAux (CpMacOf st + 1) st 0

/-! ## The block-invariant checker (`MergeBlock::checkBlockInvariants`) -/

/-- `children[i]->index == i` for every present child. -/
def blockIdxOK : List MNode → Nat → Bool
  | [], _ => true
  | c :: cs, i => decide (c.nodeIndex = (i : Int)) && blockIdxOK cs (i + 1)

/-- `children[i - 1]->isLeaf == children[i]->isLeaf` for every adjacent pair. -/
def blockLeafOK : List MNode → Bool
  | [] => true
  | [_] => true
  | c :: c2 :: cs => (c.isLeaf == c2.isLeaf) && blockLeafOK (c2 :: cs)

mutual
/- The assertion body of `MergeBlock::checkBlockInvariants`, recursively at
every block: present children exactly fill slots `0 .. ChildCount()`,
their stored `index` fields match their slots, children are uniformly
leaves or blocks, `lengths` agrees with `recomputeLengthsSlow()` (the
`PartialLengths::operator==` array comparison) and `stats` agrees with
`recomputeStatsSlow()` with `depthMax >= depthMin`. -/
def blockOKb : MNode → Bool
  | .seg _ => true
  | .block bd cs =>
      decide (cs.length = bd.lengths.count) &&
      blockIdxOK cs 0 &&
      blockLeafOK cs &&
      decide ((recomputeLengthsSlow cs).lens = bd.lengths.lens) &&
      decide (bd.stats = recomputeStatsSlow bd.lengths.count cs) &&
      decide (bd.stats.depthMin ≤ bd.stats.depthMax) &&
      blockOKbList cs
def blockOKbList : List MNode → Bool
  | [] => true
  | c :: cs => blockOKb c && blockOKbList cs
end

/-! ## Concrete scenario states

The loopback scenario (client 7): load `"abc"`, `Replace(1, 1, "X")`,
`Replace(0, 0, "Y")`.  The second acknowledgement retires the first
edit (`minSeq` = own seq on the loopback router), marking the
tombstoned `"b"` segment dead while it stays in the tree.  The states
below were obtained by evaluating the embedded operations and are tied
to them by the `rfl` lemmas that follow. -/

def padNil (l : List Nat) : List Nat :=
  l ++ List.replicate (BlockSize - l.length) lengthNil

def mkSegL (sid : Nat) (t : List Char) (dead : Bool) (ea er : Option Nat)
    (idx : Int) : MNode :=
  .seg ⟨sid, t, t.length, dead, ea, er, idx⟩

/-- The tree right after `loadTexts` of `["abc"]`. -/
def tLoad : MTree :=
  ⟨.block ⟨0, -1, ⟨1, padNil [3]⟩, ⟨0, 1, 0⟩⟩
    [mkSegL 0 "abc".toList false none none 0],
   [], [], 1000, 7, 1, 1, 0⟩

/-- After the local `Replace(1, 1, "X")` (edit 0, not yet acknowledged). -/
def tAfterX : MTree :=
  ⟨.block ⟨0, -1, ⟨4, padNil [1, 1, 2, 3]⟩, ⟨0, 1, 0⟩⟩
    [mkSegL 0 ['a'] false none none 0,
     mkSegL 2 ['b'] false none (some 0) 1,
     mkSegL 3 ['X'] false (some 0) none 2,
     mkSegL 1 ['c'] false none none 3],
   [], [⟨0, 1000, 7, [3], [2], 1, 0⟩], 1001, 7, 4, 1, 1⟩

def msgX : Message := ⟨1000, 0, .insert 1 2 "X".toList⟩

/-- After the loopback delivery of `msgX` (edit 0 acknowledged at seq 0). -/
def tAckX : MTree :=
  { tAfterX with edits := [⟨0, 0, 7, [3], [2], 1, 0⟩], editsLocal := [] }

/-- After the local `Replace(0, 0, "Y")` (edit 1, not yet acknowledged). -/
def tAfterY : MTree :=
  ⟨.block ⟨0, -1, ⟨5, padNil [1, 2, 2, 3, 4]⟩, ⟨0, 1, 0⟩⟩
    [mkSegL 4 ['Y'] false (some 1) none 0,
     mkSegL 0 ['a'] false none none 1,
     mkSegL 2 ['b'] false none (some 0) 2,
     mkSegL 3 ['X'] false (some 0) none 3,
     mkSegL 1 ['c'] false none none 4],
   [⟨0, 0, 7, [3], [2], 1, 0⟩], [⟨1, 1001, 7, [4], [], 0, 1⟩],
   1002, 7, 5, 1, 2⟩

def msgY : Message := ⟨1001, 0, .insert 0 0 "Y".toList⟩

/-- After the loopback delivery of `msgY`: its `minSeq = 1` retires edit 0,
whose tombstoned segment `"b"` is marked dead (`isDead`, with `edRemoved`
reset) but stays in the tree.  The visible document is `"YaXc"`. -/
def tPre : MTree :=
  ⟨.block ⟨0, -1, ⟨5, padNil [1, 2, 2, 3, 4]⟩, ⟨0, 1, 1⟩⟩
    [mkSegL 4 ['Y'] false (some 1) none 0,
     mkSegL 0 ['a'] false none none 1,
     mkSegL 2 ['b'] true none none 2,
     mkSegL 3 ['X'] false none none 3,
     mkSegL 1 ['c'] false none none 4],
   [⟨1, 1, 7, [4], [], 0, 1⟩], [], 1002, 7, 5, 1, 2⟩

/-- The state after `Replace(0, 3, "Z")` on `tPre`.  The tombstone loop
walked the dead `"b"` segment too (`SegmentIterator::Next` skips only
`IsRemoved`), so `updateParentLengths(-1)` ran once per segment over a
column that had already dropped to 0: the partial lengths wrapped to
`lengthNil` mid-array and the later `Update` calls stopped at the first
nil, leaving the stored lengths corrupt (total 0 instead of 2). -/
def tCorrupt : MTree :=
  ⟨.block ⟨0, -1, ⟨6, padNil [0, 0, lengthNil, lengthNil, lengthNil, 0]⟩,
      ⟨0, 1, 1⟩⟩
    [mkSegL 4 ['Y'] false (some 1) (some 2) 0,
     mkSegL 0 ['a'] false none (some 2) 1,
     mkSegL 2 ['b'] true none (some 2) 2,
     mkSegL 3 ['X'] false none (some 2) 3,
     mkSegL 5 ['Z'] false (some 2) none 4,
     mkSegL 1 ['c'] false none none 5],
   [⟨1, 1, 7, [4], [], 0, 1⟩], [⟨2, 1002, 7, [5], [4, 0, 2, 3], 0, -2⟩],
   1003, 7, 6, 1, 3⟩

def msgZ : Message := ⟨1002, 1, .insert 0 3 "Z".toList⟩

/-! The two-client scenario on the multi-client router: client 10 loads
`"abcdef"` through an acknowledged insert, then client 10 runs
`Replace(1, 3, "X")` while client 11 concurrently runs
`Replace(2, 3, "Y")`, and `PumpMessages` delivers both. -/

/-- Client 10's tree once its initial `Replace(0, 0, "abcdef")` is
acknowledged at seq 1. -/
def tA0 : MTree :=
  ⟨.block ⟨0, -1, ⟨1, padNil [6]⟩, ⟨0, 1, 0⟩⟩
    [mkSegL 0 "abcdef".toList false (some 0) none 0],
   [⟨0, 1, 10, [0], [], 0, 6⟩], [], 1001, 10, 1, 1, 1⟩

/-- Client 11's tree after receiving that insert. -/
def tB0 : MTree :=
  ⟨.block ⟨0, -1, ⟨1, padNil [6]⟩, ⟨0, 1, 0⟩⟩
    [mkSegL 0 "abcdef".toList false (some 0) none 0],
   [⟨0, 1, 10, [0], [], 0, 6⟩], [], 1000, 11, 1, 1, 1⟩

/-- Client 10 after its local `Replace(1, 3, "X")` (pending edit 1). -/
def tA1 : MTree :=
  ⟨.block ⟨0, -1, ⟨4, padNil [1, 1, 2, 4]⟩, ⟨0, 1, 0⟩⟩
    [mkSegL 0 ['a'] false (some 0) none 0,
     mkSegL 2 "bcd".toList false (some 0) (some 1) 1,
     mkSegL 3 ['X'] false (some 1) none 2,
     mkSegL 1 "ef".toList false (some 0) none 3],
   [⟨0, 1, 10, [0, 1, 2], [], 0, 6⟩], [⟨1, 1001, 10, [3], [2], 1, -2⟩],
   1002, 10, 4, 1, 2⟩

/-- Client 11 after its local `Replace(2, 3, "Y")` (pending edit 1). -/
def tB2 : MTree :=
  ⟨.block ⟨0, -1, ⟨4, padNil [2, 2, 3, 4]⟩, ⟨0, 1, 0⟩⟩
    [mkSegL 0 "ab".toList false (some 0) none 0,
     mkSegL 2 "cde".toList false (some 0) (some 1) 1,
     mkSegL 3 ['Y'] false (some 1) none 2,
     mkSegL 1 ['f'] false (some 0) none 3],
   [⟨0, 1, 10, [0, 1, 2], [], 0, 6⟩], [⟨1, 1000, 11, [3], [2], 2, -2⟩],
   1001, 11, 4, 1, 2⟩

/-- Client 10's `"X"` op as sequenced by the router (seq 2). -/
def smX : SMsg := ⟨⟨1001, 1, .insert 1 4 "X".toList⟩, 2, 0, 10⟩

/-- Client 11's `"Y"` op as sequenced by the router (seq 3). -/
def smY : SMsg := ⟨⟨1000, 1, .insert 2 5 "Y".toList⟩, 3, 0, 11⟩

/-- Client 10 after `smX` comes back (own edit acknowledged at seq 2). -/
def tA2 : MTree :=
  { tA1 with
    edits := [⟨0, 1, 10, [0, 1, 2], [], 0, 6⟩, ⟨1, 2, 10, [3], [2], 1, -2⟩]
    editsLocal := [] }

/-- Client 11 after the remote `smX`: the tardis maps the server range
`[1, 4)` through the pending local edit (Left stickiness) to the local
range `[1, 2)`, so only `"b"` is tombstoned before `"X"` is inserted. -/
def tB2x : MTree :=
  ⟨.block ⟨0, -1, ⟨6, padNil [1, 1, 1, 2, 3, 4]⟩, ⟨0, 1, 0⟩⟩
    [mkSegL 0 ['a'] false (some 0) none 0,
     mkSegL 4 ['b'] false (some 0) (some 2) 1,
     mkSegL 2 "cde".toList false (some 0) (some 1) 2,
     mkSegL 5 ['X'] false (some 2) none 3,
     mkSegL 3 ['Y'] false (some 1) none 4,
     mkSegL 1 ['f'] false (some 0) none 5],
   [⟨0, 1, 10, [0, 1, 2, 4], [], 0, 6⟩, ⟨2, 2, 10, [5], [4], 1, 0⟩],
   [⟨1, 1000, 11, [3], [2], 4, -2⟩], 1001, 11, 6, 1, 3⟩

/-- Client 10 after the remote `smY`: the tardis maps `[2, 5)` through
its own acknowledged `"X"` edit (Right stickiness) to `[1, 3)`, so
`"X"` and `"e"` are tombstoned and `"Y"` inserted: it reads `"aYf"`. -/
def tAf : MTree :=
  ⟨.block ⟨0, -1, ⟨6, padNil [1, 1, 1, 1, 2, 3]⟩, ⟨0, 1, 0⟩⟩
    [mkSegL 0 ['a'] false (some 0) none 0,
     mkSegL 2 "bcd".toList false (some 0) (some 1) 1,
     mkSegL 3 ['X'] false (some 1) (some 2) 2,
     mkSegL 1 ['e'] false (some 0) (some 2) 3,
     mkSegL 5 ['Y'] false (some 2) none 4,
     mkSegL 4 ['f'] false (some 0) none 5],
   [⟨0, 1, 10, [0, 1, 2, 4], [], 0, 6⟩, ⟨1, 2, 10, [3], [2], 1, -2⟩,
    ⟨2, 3, 11, [5], [3, 1], 1, -1⟩],
   [], 1002, 10, 6, 1, 3⟩

/-- Client 11 after its own `smY` comes back: it reads `"aXYf"`. -/
def tBf : MTree :=
  ⟨.block ⟨0, -1, ⟨6, padNil [1, 1, 1, 2, 3, 4]⟩, ⟨0, 1, 0⟩⟩
    [mkSegL 0 ['a'] false (some 0) none 0,
     mkSegL 4 ['b'] false (some 0) (some 2) 1,
     mkSegL 2 "cde".toList false (some 0) (some 1) 2,
     mkSegL 5 ['X'] false (some 2) none 3,
     mkSegL 3 ['Y'] false (some 1) none 4,
     mkSegL 1 ['f'] false (some 0) none 5],
   [⟨0, 1, 10, [0, 1, 2, 4], [], 0, 6⟩, ⟨2, 2, 10, [5], [4], 1, 0⟩,
    ⟨1, 3, 11, [3], [2], 4, -2⟩],
   [], 1001, 11, 6, 1, 3⟩

/-- The multi-client worlds along the scenario. -/
def mwBase : MultiWorld := ⟨2, [], [tA0, tB0]⟩

def mwW1 : MultiWorld := ⟨3, [smX], [tA1, tB0]⟩

def mwW2 : MultiWorld := ⟨4, [smX, smY], [tA1, tB2]⟩

def mwFin : MultiWorld := ⟨4, [], [tAf, tBf]⟩

/-! Intermediate states of the two scenarios, used to break the
evaluation of `Replace` / `OnMessageReceived` into its phases. -/

/-- `StartLocalEdit tLoad`. -/
def sL : MTree :=
  { tLoad with editsLocal := [⟨0, 1000, 7, [], [], -1, 0⟩],
               clientSeqNext := 1001, nextEditId := 1 }

/-- After `findAndSplit 2` split `"abc"` into `"ab"` / `"c"`. -/
def sA : MTree :=
  ⟨.block ⟨0, -1, ⟨2, padNil [2, 3]⟩, ⟨0, 1, 0⟩⟩
    [mkSegL 0 "ab".toList false none none 0,
     mkSegL 1 ['c'] false none none 1],
   [], [⟨0, 1000, 7, [], [], -1, 0⟩], 1001, 7, 2, 1, 1⟩

/-- After `findAndSplit 1` split `"ab"` into `"a"` / `"b"`. -/
def sB : MTree :=
  ⟨.block ⟨0, -1, ⟨3, padNil [1, 2, 3]⟩, ⟨0, 1, 0⟩⟩
    [mkSegL 0 ['a'] false none none 0,
     mkSegL 2 ['b'] false none none 1,
     mkSegL 1 ['c'] false none none 2],
   [], [⟨0, 1000, 7, [], [], -1, 0⟩], 1001, 7, 3, 1, 1⟩

/-- After the tombstone loop removed `"b"`. -/
def sC : MTree :=
  ⟨.block ⟨0, -1, ⟨3, padNil [1, 1, 2]⟩, ⟨0, 1, 0⟩⟩
    [mkSegL 0 ['a'] false none none 0,
     mkSegL 2 ['b'] false none (some 0) 1,
     mkSegL 1 ['c'] false none none 2],
   [], [⟨0, 1000, 7, [], [2], -1, 0⟩], 1001, 7, 3, 1, 1⟩

/-- After `"X"` was inserted before `"c"`. -/
def sD : MTree :=
  ⟨.block ⟨0, -1, ⟨4, padNil [1, 1, 2, 3]⟩, ⟨0, 1, 0⟩⟩
    [mkSegL 0 ['a'] false none none 0,
     mkSegL 2 ['b'] false none (some 0) 1,
     mkSegL 3 ['X'] false (some 0) none 2,
     mkSegL 1 ['c'] false none none 3],
   [], [⟨0, 1000, 7, [3], [2], -1, 0⟩], 1001, 7, 4, 1, 1⟩

/-- `StartLocalEdit tA0`. -/
def aL : MTree :=
  { tA0 with editsLocal := [⟨1, 1001, 10, [], [], -1, 0⟩],
             clientSeqNext := 1002, nextEditId := 2 }

/-- After `findAndSplit 4` split `"abcdef"` into `"abcd"` / `"ef"`. -/
def aA : MTree :=
  ⟨.block ⟨0, -1, ⟨2, padNil [4, 6]⟩, ⟨0, 1, 0⟩⟩
    [mkSegL 0 "abcd".toList false (some 0) none 0,
     mkSegL 1 "ef".toList false (some 0) none 1],
   [⟨0, 1, 10, [0, 1], [], 0, 6⟩], [⟨1, 1001, 10, [], [], -1, 0⟩],
   1002, 10, 2, 1, 2⟩

/-- After `findAndSplit 1` split `"abcd"` into `"a"` / `"bcd"`. -/
def aB : MTree :=
  ⟨.block ⟨0, -1, ⟨3, padNil [1, 4, 6]⟩, ⟨0, 1, 0⟩⟩
    [mkSegL 0 ['a'] false (some 0) none 0,
     mkSegL 2 "bcd".toList false (some 0) none 1,
     mkSegL 1 "ef".toList false (some 0) none 2],
   [⟨0, 1, 10, [0, 1, 2], [], 0, 6⟩], [⟨1, 1001, 10, [], [], -1, 0⟩],
   1002, 10, 3, 1, 2⟩

/-- After the tombstone loop removed `"bcd"`. -/
def aC : MTree :=
  ⟨.block ⟨0, -1, ⟨3, padNil [1, 1, 3]⟩, ⟨0, 1, 0⟩⟩
    [mkSegL 0 ['a'] false (some 0) none 0,
     mkSegL 2 "bcd".toList false (some 0) (some 1) 1,
     mkSegL 1 "ef".toList false (some 0) none 2],
   [⟨0, 1, 10, [0, 1, 2], [], 0, 6⟩], [⟨1, 1001, 10, [], [2], -1, 0⟩],
   1002, 10, 3, 1, 2⟩

/-- After `"X"` was inserted before `"ef"`. -/
def aD : MTree :=
  ⟨.block ⟨0, -1, ⟨4, padNil [1, 1, 2, 4]⟩, ⟨0, 1, 0⟩⟩
    [mkSegL 0 ['a'] false (some 0) none 0,
     mkSegL 2 "bcd".toList false (some 0) (some 1) 1,
     mkSegL 3 ['X'] false (some 1) none 2,
     mkSegL 1 "ef".toList false (some 0) none 3],
   [⟨0, 1, 10, [0, 1, 2], [], 0, 6⟩], [⟨1, 1001, 10, [3], [2], -1, 0⟩],
   1002, 10, 4, 1, 2⟩

/-- `StartLocalEdit tB0`. -/
def bL : MTree :=
  { tB0 with editsLocal := [⟨1, 1000, 11, [], [], -1, 0⟩],
             clientSeqNext := 1001, nextEditId := 2 }

/-- After `findAndSplit 5` split `"abcdef"` into `"abcde"` / `"f"`. -/
def bA : MTree :=
  ⟨.block ⟨0, -1, ⟨2, padNil [5, 6]⟩, ⟨0, 1, 0⟩⟩
    [mkSegL 0 "abcde".toList false (some 0) none 0,
     mkSegL 1 ['f'] false (some 0) none 1],
   [⟨0, 1, 10, [0, 1], [], 0, 6⟩], [⟨1, 1000, 11, [], [], -1, 0⟩],
   1001, 11, 2, 1, 2⟩

/-- After `findAndSplit 2` split `"abcde"` into `"ab"` / `"cde"`. -/
def bB : MTree :=
  ⟨.block ⟨0, -1, ⟨3, padNil [2, 5, 6]⟩, ⟨0, 1, 0⟩⟩
    [mkSegL 0 "ab".toList false (some 0) none 0,
     mkSegL 2 "cde".toList false (some 0) none 1,
     mkSegL 1 ['f'] false (some 0) none 2],
   [⟨0, 1, 10, [0, 1, 2], [], 0, 6⟩], [⟨1, 1000, 11, [], [], -1, 0⟩],
   1001, 11, 3, 1, 2⟩

/-- After the tombstone loop removed `"cde"`. -/
def bC : MTree :=
  ⟨.block ⟨0, -1, ⟨3, padNil [2, 2, 3]⟩, ⟨0, 1, 0⟩⟩
    [mkSegL 0 "ab".toList false (some 0) none 0,
     mkSegL 2 "cde".toList false (some 0) (some 1) 1,
     mkSegL 1 ['f'] false (some 0) none 2],
   [⟨0, 1, 10, [0, 1, 2], [], 0, 6⟩], [⟨1, 1000, 11, [], [2], -1, 0⟩],
   1001, 11, 3, 1, 2⟩

/-- After `"Y"` was inserted before `"f"`. -/
def bD : MTree :=
  ⟨.block ⟨0, -1, ⟨4, padNil [2, 2, 3, 4]⟩, ⟨0, 1, 0⟩⟩
    [mkSegL 0 "ab".toList false (some 0) none 0,
     mkSegL 2 "cde".toList false (some 0) (some 1) 1,
     mkSegL 3 ['Y'] false (some 1) none 2,
     mkSegL 1 ['f'] false (some 0) none 3],
   [⟨0, 1, 10, [0, 1, 2], [], 0, 6⟩], [⟨1, 1000, 11, [3], [2], -1, 0⟩],
   1001, 11, 4, 1, 2⟩

/-- `tA2` with the fresh edit for the incoming remote `"Y"` op appended. -/
def dA : MTree :=
  { tA2 with edits := tA2.edits ++ [⟨2, 3, 11, [], [], -1, 0⟩], nextEditId := 3 }

/-- After `findAndSplit 3` split `"ef"` into `"e"` / `"f"`. -/
def dAa : MTree :=
  ⟨.block ⟨0, -1, ⟨5, padNil [1, 1, 2, 3, 4]⟩, ⟨0, 1, 0⟩⟩
    [mkSegL 0 ['a'] false (some 0) none 0,
     mkSegL 2 "bcd".toList false (some 0) (some 1) 1,
     mkSegL 3 ['X'] false (some 1) none 2,
     mkSegL 1 ['e'] false (some 0) none 3,
     mkSegL 4 ['f'] false (some 0) none 4],
   [⟨0, 1, 10, [0, 1, 2, 4], [], 0, 6⟩, ⟨1, 2, 10, [3], [2], 1, -2⟩,
    ⟨2, 3, 11, [], [], -1, 0⟩],
   [], 1002, 10, 5, 1, 3⟩

/-- After the tombstone loop removed `"X"` and `"e"`. -/
def dAc0 : MTree :=
  ⟨.block ⟨0, -1, ⟨5, padNil [1, 1, 1, 1, 2]⟩, ⟨0, 1, 0⟩⟩
    [mkSegL 0 ['a'] false (some 0) none 0,
     mkSegL 2 "bcd".toList false (some 0) (some 1) 1,
     mkSegL 3 ['X'] false (some 1) (some 2) 2,
     mkSegL 1 ['e'] false (some 0) (some 2) 3,
     mkSegL 4 ['f'] false (some 0) none 4],
   [⟨0, 1, 10, [0, 1, 2, 4], [], 0, 6⟩, ⟨1, 2, 10, [3], [2], 1, -2⟩,
    ⟨2, 3, 11, [], [3, 1], -1, 0⟩],
   [], 1002, 10, 5, 1, 3⟩

/-- After `"Y"` was inserted before `"f"`. -/
def dAc1 : MTree :=
  ⟨.block ⟨0, -1, ⟨6, padNil [1, 1, 1, 1, 2, 3]⟩, ⟨0, 1, 0⟩⟩
    [mkSegL 0 ['a'] false (some 0) none 0,
     mkSegL 2 "bcd".toList false (some 0) (some 1) 1,
     mkSegL 3 ['X'] false (some 1) (some 2) 2,
     mkSegL 1 ['e'] false (some 0) (some 2) 3,
     mkSegL 5 ['Y'] false (some 2) none 4,
     mkSegL 4 ['f'] false (some 0) none 5],
   [⟨0, 1, 10, [0, 1, 2, 4], [], 0, 6⟩, ⟨1, 2, 10, [3], [2], 1, -2⟩,
    ⟨2, 3, 11, [5], [3, 1], -1, 0⟩],
   [], 1002, 10, 6, 1, 3⟩

/-! ## Edit-reference tracking (for the `SendReplaceOp` reachability law) -/

/-- A segment holds no (weak) reference to the edit `eid`. -/
def noRefSeg (eid : Nat) (s : SegData) : Bool :=
  decide (s.edAdded ≠ some eid) && decide (s.edRemoved ≠ some eid)

/-- No segment of the subtree references the edit `eid`. -/
def nodeNoRef (eid : Nat) (n : MNode) : Bool :=
  (flattenRaw n).all (noRefSeg eid)

def listNoRef (eid : Nat) (cs : List MNode) : Bool :=
  (flattenRawList cs).all (noRefSeg eid)

/-- The `segmentsAdded` list of the (first) live edit with id `eid`, in
the order `SendReplaceOp` resolves its edit. -/
def addedOf (st : MTree) (eid : Nat) : Option (List Nat) :=
  ((st.editsLocal ++ st.edits).find? (fun e => decide (e.editId = eid))).map
    (fun e => e.segmentsAdded)

/-- The id `nextEditId` about to be given to a fresh edit is genuinely
fresh: no live edit carries it and no segment references it.  This holds
in every state the code builds (edit ids are allocated from a counter). -/
def editIdFreshb (st : MTree) : Bool :=
  (st.edits ++ st.editsLocal).all (fun e => decide (e.editId ≠ st.nextEditId)) &&
  nodeNoRef st.nextEditId st.root

/-! ## Theorems -/

/-- C3: the adjustment law.  For every position `p`, adjustment `(cp, dcp)`
and stickiness flag: `CpAdjustCp` returns `p` when `p < cp` or `dcp = 0`;
when `dcp < 0` it returns `p + dcp` if `p > cp - dcp` and otherwise
collapses to `cp`; when `dcp > 0` it returns `p + dcp` if `p > cp`, and
for `p = cp` returns `p + dcp` under Right stickiness and `p` under Left
stickiness; and the 11-row `Stick = Right` table of spec section 8 holds. -/
theorem claim_C3 :
    (∀ (p : Int) (adj : Adjustment) (stick : Stick),
      ((p < adj.cp ∨ adj.dcp = 0) → CpAdjustCp p adj stick = p) ∧
      (¬ p < adj.cp → adj.dcp < 0 → p > adj.cp - adj.dcp →
        CpAdjustCp p adj stick = p + adj.dcp) ∧
      (¬ p < adj.cp → adj.dcp < 0 → ¬ p > adj.cp - adj.dcp →
        CpAdjustCp p adj stick = adj.cp) ∧
      (adj.dcp > 0 → p > adj.cp → CpAdjustCp p adj stick = p + adj.dcp) ∧
      (adj.dcp > 0 → p = adj.cp →
        CpAdjustCp p adj Stick.Right = p + adj.dcp ∧
        CpAdjustCp p adj Stick.Left = p)) ∧
    (CpAdjustCp 5 ⟨4, 0⟩ .Right = 5 ∧ CpAdjustCp 5 ⟨5, 0⟩ .Right = 5 ∧
     CpAdjustCp 5 ⟨6, 0⟩ .Right = 5 ∧ CpAdjustCp 4 ⟨5, 7⟩ .Right = 4 ∧
     CpAdjustCp 5 ⟨5, 7⟩ .Right = 12 ∧ CpAdjustCp 6 ⟨5, 7⟩ .Right = 13 ∧
     CpAdjustCp 4 ⟨5, -2⟩ .Right = 4 ∧ CpAdjustCp 5 ⟨5, -2⟩ .Right = 5 ∧
     CpAdjustCp 6 ⟨5, -2⟩ .Right = 5 ∧ CpAdjustCp 7 ⟨5, -2⟩ .Right = 5 ∧
     CpAdjustCp 8 ⟨5, -2⟩ .Right = 6) := by
  constructor
  · intro p adj stick
    refine ⟨?_, ?_, ?_, ?_, ?_⟩
    · intro h; simp only [CpAdjustCp]; split_ifs <;> first | rfl | omega
    · intro h1 h2 h3; simp only [CpAdjustCp]; split_ifs <;> first | rfl | omega
    · intro h1 h2 h3; simp only [CpAdjustCp]; split_ifs <;> first | rfl | omega
    · intro h1 h2; simp only [CpAdjustCp]; split_ifs <;> first | rfl | omega
    · intro h1 h2
      constructor <;>
        (simp only [CpAdjustCp]; split_ifs <;>
          first | rfl | omega | contradiction | simp_all)
  · decide

/-- C3 witness: the adjustment law instantiated at `p = 8`,
`adj = (5, -2)`, Right stickiness. -/
theorem claim_C3_witness : CpAdjustCp 8 ⟨5, -2⟩ .Right = 8 + (-2 : Int) :=
  (claim_C3.1 8 ⟨5, -2⟩ .Right).2.1 (by decide) (by decide) (by decide)

/-- C8 counterexample: the claim places `2^31` inside the acknowledged
range, i.e. asserts `isAcked (2^31) = true`, but
`Seq::LocalFirst() = 2^31` and `isAcked` is a strict comparison, so
`isAcked (2^31) = false`. -/
theorem claim_C8_counterexample :
    (1 ≤ 2147483648 ∧ 2147483648 ≤ 2 ^ 31) ∧
      Seq.isAcked 2147483648 = false := by
  constructor
  · constructor <;> norm_num
  · rfl

/-- C8 (amended): `isAcked` returns true exactly for sequence numbers
below `LocalFirst() = 2^31`: true for `Universal = 0` and the
acknowledged range `[1, 2^31 - 1]`, false for the local-speculative
range `[2^31, 2^32 - 2]` and for `Invalid = 2^32 - 1`. -/
theorem claim_C8_amended (s : Nat) (hs : s < U32) :
    (Seq.isAcked s = true ↔ s ≤ 2147483647) ∧
      Seq.isAcked Seq.Universal = true ∧ Seq.isAcked Seq.Invalid = false := by
  refine ⟨?_, by decide, by decide⟩
  simp only [Seq.isAcked, Seq.LocalFirst, decide_eq_true_eq]
  omega

/-- C8 witness: the amended characterisation evaluated at `s = 1000`. -/
theorem claim_C8_amended_witness :
    Seq.isAcked 1000 = true ↔ (1000 : Nat) ≤ 2147483647 :=
  (claim_C8_amended 1000 (by norm_num [U32])).1

/-! ### List helper lemmas -/

theorem sorted_getD {l : List Nat} (h : l.Pairwise (· ≤ ·)) {j k : Nat}
    (hjk : j ≤ k) (hk : k < l.length) : l.getD j 0 ≤ l.getD k 0 := by
  rcases Nat.eq_or_lt_of_le hjk with rfl | hlt
  · exact le_refl _
  · rw [List.getD_eq_getElem _ _ (lt_trans hlt hk), List.getD_eq_getElem _ _ hk]
    exact List.pairwise_iff_getElem.mp h j k (lt_trans hlt hk) hk hlt

theorem mem_take_le {l : List Nat} (h : l.Pairwise (· ≤ ·)) {x i : Nat}
    (hx : x ∈ l.take i) (hi : 0 < i) (hil : i ≤ l.length) :
    x ≤ l.getD (i - 1) 0 := by
  rcases List.mem_iff_getElem.mp hx with ⟨n, hn, rfl⟩
  have hn' : n < i := lt_of_lt_of_le hn (by simpa using List.length_take_le i l)
  have hnl : n < l.length := lt_of_lt_of_le hn' hil
  rw [List.getElem_take]
  rw [show (l.take i)[n] = l[n] from List.getElem_take l] at *
  have := sorted_getD h (j := n) (k := i - 1) (by omega) (by omega)
  rwa [List.getD_eq_getElem _ _ hnl] at this

theorem mem_drop_ge {l : List Nat} (h : l.Pairwise (· ≤ ·)) {x i : Nat}
    (hx : x ∈ l.drop i) (hil : i < l.length) : l.getD i 0 ≤ x := by
  rcases List.mem_iff_getElem.mp hx with ⟨n, hn, rfl⟩
  have hn' : i + n < l.length := by
    have := List.length_drop i l ▸ hn; omega
  rw [List.getElem_drop, List.getD_eq_getElem _ _ hil]
  have hd := sorted_getD h (j := i) (k := i + n) (Nat.le_add_right _ _) hn'
  rw [List.getD_eq_getElem _ _ hil, List.getD_eq_getElem _ _ hn'] at hd
  exact hd

theorem takeWhile_eq_take_of {p : Nat → Bool} {l : List Nat} {k : Nat}
    (h1 : ∀ x ∈ l.take k, p x) (h2 : ∀ x, (l.drop k).head? = some x → ¬ p x) :
    l.takeWhile p = l.take k ∧ l.dropWhile p = l.drop k := by
  induction l generalizing k with
  | nil => simp
  | cons a t ih =>
    cases k with
    | zero =>
      have : ¬ p a := h2 a (by simp)
      simp [List.takeWhile_cons, List.dropWhile_cons, this]
    | succ k =>
      have ha : p a := h1 a (by simp)
      have := ih (k := k) (fun x hx => h1 x (by simp [hx])) (fun x hx => h2 x (by simpa using hx))
      simp [List.takeWhile_cons, List.dropWhile_cons, ha, this.1, this.2]

theorem mod_add_neg_of_le {a e : Nat} (hea : e ≤ a) (ha : a < U32) (he : e ≤ U32) :
    (a + (U32 - e)) % U32 = a - e := by
  have hU : 0 < U32 := by norm_num [U32]
  have : a + (U32 - e) = (a - e) + U32 := by omega
  rw [this, Nat.add_mod_right, Nat.mod_eq_of_lt (by omega)]

theorem upperBound_le_length (l : List Nat) (x : Nat) :
    PL.upperBound l x ≤ l.length :=
  List.Sublist.length_le (List.takeWhile_sublist _)

theorem upperBound_mem_le (l : List Nat) (x : Nat) :
    ∀ j < PL.upperBound l x, l.getD j 0 ≤ x := by
  induction l with
  | nil => intro j hj; simp [PL.upperBound] at hj
  | cons a t ih =>
    intro j hj
    by_cases ha : a ≤ x
    · simp only [PL.upperBound, List.takeWhile_cons, decide_eq_true_eq, if_pos ha,
        List.length_cons] at hj
      cases j with
      | zero => simpa using ha
      | succ j => exact ih j (by simpa [PL.upperBound] using Nat.lt_of_succ_lt_succ hj)
    · simp [PL.upperBound, List.takeWhile_cons, ha] at hj

theorem upperBound_getD_gt (l : List Nat) (x : Nat)
    (h : PL.upperBound l x < l.length) : x < l.getD (PL.upperBound l x) 0 := by
  induction l with
  | nil => simp at h
  | cons a t ih =>
    by_cases ha : a ≤ x
    · have hub : PL.upperBound (a :: t) x = PL.upperBound t x + 1 := by
        simp [PL.upperBound, List.takeWhile_cons, ha]
      rw [hub] at h ⊢
      simpa using ih (by simpa using h)
    · have hub : PL.upperBound (a :: t) x = 0 := by
        simp [PL.upperBound, List.takeWhile_cons, ha]
      rw [hub]
      simpa using Nat.lt_of_not_le ha

/-- C5 counterexample: for the well-formed one-column vector `[5]` and the
claim-permitted offset `offset = L[count-1] = 5`, `Find` returns index 1,
which is not a valid present-column index (`count = 1`). -/
theorem claim_C5_counterexample :
    (PL.ofList [5]).WF ∧ 1 ≤ (PL.ofList [5]).count ∧
      5 ≤ (PL.ofList [5]).TotalLength ∧
      ¬ ((PL.ofList [5]).Find 5).index < (PL.ofList [5]).count := by
  refine ⟨by decide, by decide, by decide, by decide⟩

/-- C5 (amended): for every well-formed partial-length vector with
`count ≥ 1` and every offset with `0 ≤ offset < L[count-1]` (strictly
below the total), `Find(offset)` returns the smallest `i` with
`offset < L[i]`, with `offsetInChild = offset - L[i-1]` (or `offset`
itself when `i = 0`), and the returned index is a valid present-column
index.  (At `offset = L[count-1]` the search runs past the last present
column, as the counterexample shows.) -/
theorem claim_C5_amended (pl : PL) (hWF : pl.WF) (hc : 1 ≤ pl.count)
    (off : Nat) (hoff : off < pl.TotalLength) :
    (pl.Find off).index < pl.count ∧
      off < pl.LengthAt (pl.Find off).index ∧
      (∀ j < (pl.Find off).index, pl.LengthAt j ≤ off) ∧
      (pl.Find off).offset
        = off - (if (pl.Find off).index = 0 then 0
                 else pl.LengthAt ((pl.Find off).index - 1)) := by
  obtain ⟨hlen, hcount, _hs, _hb, _hnil⟩ := hWF
  set i := PL.upperBound pl.lens off with hi
  have hub_le : ∀ j < i, pl.lens.getD j 0 ≤ off := upperBound_mem_le pl.lens off
  have hile : i ≤ pl.count - 1 := by
    by_contra hgt
    have := hub_le (pl.count - 1) (by omega)
    simp only [PL.TotalLength] at hoff
    omega
  have hic : i < pl.count := by omega
  have hlt : off < pl.lens.getD i 0 :=
    upperBound_getD_gt pl.lens off (by omega)
  have hInd : (pl.Find off).index = i := by
    simp only [PL.Find, ← hi]
    split
    · next h0 => simp [h0]
    · rfl
  have hOff : (pl.Find off).offset
      = off - (if i = 0 then 0 else pl.lens.getD (i - 1) 0) := by
    simp only [PL.Find, ← hi]
    split
    · next h0 => simp [h0]
    · next h0 => simp [h0]
  refine ⟨hInd ▸ hic, ?_, ?_, ?_⟩
  · rw [hInd]; exact hlt
  · intro j hj
    rw [hInd] at hj
    exact hub_le j hj
  · rw [hOff, hInd]
    rfl

/-- C5 witness: the amended `Find` characterisation evaluated on the
vector `[3, 5, 9]` at offset 5. -/
theorem claim_C5_amended_witness :
    ((PL.ofList [3, 5, 9]).Find 5).index < (PL.ofList [3, 5, 9]).count ∧
      5 < (PL.ofList [3, 5, 9]).LengthAt ((PL.ofList [3, 5, 9]).Find 5).index ∧
      (∀ j < ((PL.ofList [3, 5, 9]).Find 5).index,
        (PL.ofList [3, 5, 9]).LengthAt j ≤ 5) ∧
      ((PL.ofList [3, 5, 9]).Find 5).offset
        = 5 - (if ((PL.ofList [3, 5, 9]).Find 5).index = 0 then 0
               else (PL.ofList [3, 5, 9]).LengthAt
                      (((PL.ofList [3, 5, 9]).Find 5).index - 1)) :=
  claim_C5_amended (PL.ofList [3, 5, 9]) (by decide) (by decide) 5 (by decide)

theorem sorted_cross {l : List Nat} (h : l.Pairwise (· ≤ ·)) {i : Nat}
    {x y : Nat} (hx : x ∈ l.take i) (hy : y ∈ l.drop i) : x ≤ y := by
  have h2 : (l.take i ++ l.drop i).Pairwise (· ≤ ·) := by
    rw [List.take_append_drop]; exact h
  exact (List.pairwise_append.mp h2).2.2 x hx y hy

theorem mem_dropWhile_nil {l : List Nat} (h : l.Pairwise (· ≤ ·))
    (hb : ∀ v ∈ l, v ≤ lengthNil) :
    ∀ y ∈ l.dropWhile (fun v => decide (v ≠ lengthNil)), y = lengthNil := by
  induction l with
  | nil => simp
  | cons a t ih =>
    intro y hy
    by_cases ha : a = lengthNil
    · rw [List.dropWhile_cons, if_neg (by simp [ha])] at hy
      rcases List.mem_cons.mp hy with rfl | hyt
      · exact ha
      · have h1 : a ≤ y := (List.pairwise_cons.mp h).1 y hyt
        have h2 : y ≤ lengthNil := hb y (List.mem_cons_of_mem _ hyt)
        omega
    · rw [List.dropWhile_cons, if_pos (by simp [ha])] at hy
      exact ih (List.pairwise_cons.mp h).2 (fun v hv => hb v (List.mem_cons_of_mem _ hv)) y hy

theorem modify_append_cons {l₁ l₂ : List Nat} {a : Nat} (f : Nat → Nat) {n : Nat}
    (h : l₁.length = n) : (l₁ ++ a :: l₂).modify f n = l₁ ++ f a :: l₂ := by
  subst h
  rw [List.modify_eq_set, List.getElem?_append_right (le_refl _)]
  simp [List.set_append]

/-- C7 counterexample: `[5, 10]` is well formed (monotone), index 1 is
in capacity, but `Update(1, 4294967289)` (the `uint32_t` image of the
delta `-7`) wraps column 1 to 3, destroying monotonicity. -/
theorem claim_C7_counterexample :
    (PL.ofList [5, 10]).WF ∧ 1 < (PL.ofList [5, 10]).count ∧
      ¬ ((PL.ofList [5, 10]).Update 1 4294967289).Sorted := by decide

/-- C7 (amended): in-capacity mutations preserve sortedness of the
lengths array provided the `uint32_t` arithmetic does not wrap:
`InsertColumn(i)` (for `i ≤ count < 32`) and `Split()` unconditionally;
`Update(i, d)` when either `d` is a pure growth that keeps every present
column at most `lengthMax`, or `d` is the `uint32_t` image of a deletion
`-e` with `L[i-1] + e ≤ L[i]`; and `SplitColumn(i, len)` when
`i < count < 32` and `L[i-1] + len ≤ L[i]`.  (An arbitrary delta can
wrap a column below its left neighbour, as the counterexample shows.) -/
theorem claim_C7_amended :
    (∀ (pl : PL) (i : Nat), pl.WF → i ≤ pl.count → pl.count < BlockSize →
        (pl.InsertColumn i).Sorted) ∧
    (∀ (pl : PL) (i d : Nat), pl.WF →
        (∀ v ∈ pl.lens, v ≠ lengthNil → v + d ≤ lengthMax) →
        (pl.Update i d).Sorted) ∧
    (∀ (pl : PL) (i e : Nat), pl.WF → i < pl.count →
        (if i = 0 then 0 else pl.LengthAt (i - 1)) + e ≤ pl.LengthAt i →
        (pl.Update i (U32 - e)).Sorted) ∧
    (∀ (pl : PL) (i len : Nat), pl.WF → i < pl.count → pl.count < BlockSize →
        (if i = 0 then 0 else pl.LengthAt (i - 1)) + len ≤ pl.LengthAt i →
        (pl.SplitColumn i len).Sorted) ∧
    (∀ (pl other : PL), pl.WF →
        ((pl.Split other).1.Sorted ∧ (pl.Split other).2.Sorted)) := by
  have hU32 : U32 = 4294967296 := rfl
  have hnil : lengthNil = 4294967295 := rfl
  have hmax : lengthMax = 4294967294 := rfl
  refine ⟨?_, ?_, ?_, ?_, ?_⟩
  · -- InsertColumn
    rintro pl i ⟨hlen, hcount, hs, hb, _⟩ hic hcb
    have hil : i < pl.lens.length := by rw [hlen]; omega
    unfold PL.InsertColumn PL.Sorted
    rw [List.append_assoc, List.singleton_append, List.pairwise_append]
    refine ⟨hs.sublist (List.take_sublist _ _), ?_, ?_⟩
    · rw [List.pairwise_cons]
      constructor
      · intro y hy
        have hy' : y ∈ pl.lens.drop i := (List.take_sublist _ _).subset hy
        have h1 : pl.lens.getD i 0 ≤ y := mem_drop_ge hs hy' hil
        split
        · omega
        · have := sorted_getD hs (j := i - 1) (k := i) (by omega) hil
          omega
      · exact (hs.sublist (List.drop_sublist _ _)).sublist (List.take_sublist _ _)
    · intro x hx y hy
      rcases List.mem_cons.mp hy with rfl | hy'
      · split
        · next h0 => subst h0; simp at hx
        · next h0 =>
          exact mem_take_le hs hx (by omega) (by omega)
      · exact sorted_cross hs hx ((List.take_sublist _ _).subset hy')
  · -- Update, growth
    rintro pl i d ⟨hlen, hcount, hs, hb, _⟩ hg
    unfold PL.Update PL.Sorted
    rw [List.append_assoc]
    have hsd : (pl.lens.drop i).Pairwise (· ≤ ·) := hs.sublist (List.drop_sublist _ _)
    have hTsub : ((pl.lens.drop i).takeWhile (fun v => decide (v ≠ lengthNil))).Sublist
        (pl.lens.drop i) := List.takeWhile_sublist _
    have hDnil : ∀ y ∈ (pl.lens.drop i).dropWhile (fun v => decide (v ≠ lengthNil)),
        y = lengthNil :=
      mem_dropWhile_nil hsd (fun v hv => hb v ((List.drop_sublist _ _).subset hv))
    have hTmem : ∀ a ∈ (pl.lens.drop i).takeWhile (fun v => decide (v ≠ lengthNil)),
        a ∈ pl.lens ∧ a ≠ lengthNil := by
      intro a ha
      refine ⟨(List.drop_sublist _ _).subset (hTsub.subset ha), ?_⟩
      have := List.mem_takeWhile_imp ha
      simpa using this
    have hfa : ∀ a ∈ (pl.lens.drop i).takeWhile (fun v => decide (v ≠ lengthNil)),
        (a + d) % U32 = a + d := by
      intro a ha
      obtain ⟨ham, hanil⟩ := hTmem a ha
      exact Nat.mod_eq_of_lt (by have := hg a ham hanil; omega)
    rw [List.pairwise_append]
    refine ⟨hs.sublist (List.take_sublist _ _), ?_, ?_⟩
    · rw [List.pairwise_append]
      refine ⟨?_, ?_, ?_⟩
      · rw [List.pairwise_map]
        refine (hsd.sublist hTsub).imp_of_mem ?_
        intro a b ha hb' hab
        rw [hfa a ha, hfa b hb']
        omega
      · exact hsd.sublist (List.dropWhile_sublist _)
      · intro x hx y hy
        rcases List.mem_map.mp hx with ⟨a, ha, rfl⟩
        obtain ⟨ham, hanil⟩ := hTmem a ha
        rw [hfa a ha, hDnil y hy]
        have := hg a ham hanil
        unfold lengthMax at this
        omega
    · intro x hx y hy
      have hxl : x ∈ pl.lens := (List.take_sublist _ _).subset hx
      rcases List.mem_append.mp hy with hy' | hy'
      · rcases List.mem_map.mp hy' with ⟨a, ha, rfl⟩
        have hxa : x ≤ a := sorted_cross hs hx (hTsub.subset ha)
        rw [hfa a ha]
        omega
      · rw [hDnil y hy']
        exact hb x hxl
  · -- Update, deletion
    rintro pl i e ⟨hlen, hcount, hs, hb, _⟩ hic hcol
    unfold PL.Update PL.Sorted
    rw [List.append_assoc]
    have hil : i < pl.lens.length := by
      have hBS : BlockSize = 32 := rfl
      omega
    have hie : e ≤ pl.lens.getD i 0 := by
      revert hcol; unfold PL.LengthAt; split <;> intro hcol <;> omega
    have hsd : (pl.lens.drop i).Pairwise (· ≤ ·) := hs.sublist (List.drop_sublist _ _)
    have hTsub : ((pl.lens.drop i).takeWhile (fun v => decide (v ≠ lengthNil))).Sublist
        (pl.lens.drop i) := List.takeWhile_sublist _
    have hDnil : ∀ y ∈ (pl.lens.drop i).dropWhile (fun v => decide (v ≠ lengthNil)),
        y = lengthNil :=
      mem_dropWhile_nil hsd (fun v hv => hb v ((List.drop_sublist _ _).subset hv))
    have hTge : ∀ a ∈ (pl.lens.drop i).takeWhile (fun v => decide (v ≠ lengthNil)),
        pl.lens.getD i 0 ≤ a ∧ a ≤ lengthNil := by
      intro a ha
      exact ⟨mem_drop_ge hs (hTsub.subset ha) hil,
        hb a ((List.drop_sublist _ _).subset (hTsub.subset ha))⟩
    have hfa : ∀ a ∈ (pl.lens.drop i).takeWhile (fun v => decide (v ≠ lengthNil)),
        (a + (U32 - e)) % U32 = a - e := by
      intro a ha
      obtain ⟨h1, h2⟩ := hTge a ha
      exact mod_add_neg_of_le (by omega) (by omega) (by omega)
    rw [List.pairwise_append]
    refine ⟨hs.sublist (List.take_sublist _ _), ?_, ?_⟩
    · rw [List.pairwise_append]
      refine ⟨?_, ?_, ?_⟩
      · rw [List.pairwise_map]
        refine (hsd.sublist hTsub).imp_of_mem ?_
        intro a b ha hb' hab
        rw [hfa a ha, hfa b hb']
        omega
      · exact hsd.sublist (List.dropWhile_sublist _)
      · intro x hx y hy
        rcases List.mem_map.mp hx with ⟨a, ha, rfl⟩
        obtain ⟨h1, h2⟩ := hTge a ha
        rw [hfa a ha, hDnil y hy]
        omega
    · intro x hx y hy
      have hxl : x ∈ pl.lens := (List.take_sublist _ _).subset hx
      rcases List.mem_append.mp hy with hy' | hy'
      · rcases List.mem_map.mp hy' with ⟨a, ha, rfl⟩
        obtain ⟨h1, h2⟩ := hTge a ha
        rw [hfa a ha]
        by_cases h0 : i = 0
        · subst h0; simp at hx
        · have hxp : x ≤ pl.lens.getD (i - 1) 0 := mem_take_le hs hx (by omega) (by omega)
          rw [if_neg h0] at hcol
          unfold PL.LengthAt at hcol
          omega
      · rw [hDnil y hy']
        exact hb x hxl
  · -- SplitColumn
    rintro pl i len ⟨hlen, hcount, hs, hb, _⟩ hic hcb hcol
    have hil : i < pl.lens.length := by
      have hBS : BlockSize = 32 := rfl
      omega
    have hileq : (pl.lens.take i).length = i := by
      rw [List.length_take]; omega
    have hgi : pl.lens.getD i 0 = pl.lens[i] := List.getD_eq_getElem _ _ hil
    have hshape : (pl.SplitColumn i len).lens
        = pl.lens.take i ++ PL.sub32 (pl.lens[i]) len ::
            (pl.lens[i] :: (pl.lens.drop (i + 1)).take (BlockSize - 1 - (i + 1))) := by
      unfold PL.SplitColumn PL.InsertColumn
      simp only
      have hdup : (if i + 1 = 0 then 0 else pl.lens.getD (i + 1 - 1) 0) = pl.lens[i] := by
        rw [if_neg (by omega)]
        simpa using hgi
      rw [hdup]
      have htake : pl.lens.take (i + 1) = pl.lens.take i ++ [pl.lens[i]] := by
        rw [List.take_succ]
        simp [List.getElem?_eq_getElem hil]
      rw [htake]
      simp only [List.append_assoc, List.singleton_append, List.cons_append,
        List.nil_append]
      rw [modify_append_cons _ hileq]
    rw [PL.Sorted, hshape, List.pairwise_append]
    have hsub : PL.sub32 (pl.lens[i]) len = pl.lens[i] - len := by
      unfold PL.sub32
      have hlenle : len ≤ pl.lens[i] := by
        revert hcol; unfold PL.LengthAt; rw [hgi]; split <;> intro hcol <;> omega
      have hiu : pl.lens[i] < U32 := by
        have := hb _ (List.getElem_mem hil); omega
      rw [Nat.mod_eq_of_lt (show len < U32 by omega)]
      exact mod_add_neg_of_le hlenle hiu (by omega)
    have hrest : ∀ y ∈ (pl.lens.drop (i + 1)).take (BlockSize - 1 - (i + 1)),
        pl.lens[i] ≤ y := by
      intro y hy
      have hy' : y ∈ pl.lens.drop (i + 1) := (List.take_sublist _ _).subset hy
      by_cases hi1 : i + 1 < pl.lens.length
      · have h1 : pl.lens.getD (i + 1) 0 ≤ y := mem_drop_ge hs hy' hi1
        have h2 := sorted_getD hs (j := i) (k := i + 1) (by omega) hi1
        omega
      · rw [List.drop_eq_nil_of_le (by omega)] at hy'
        simp at hy'
    refine ⟨hs.sublist (List.take_sublist _ _), ?_, ?_⟩
    · rw [List.pairwise_cons]
      constructor
      · intro y hy
        rw [hsub]
        rcases List.mem_cons.mp hy with rfl | hy'
        · omega
        · have := hrest y hy'
          omega
      · rw [List.pairwise_cons]
        exact ⟨hrest, (hs.sublist (List.drop_sublist _ _)).sublist (List.take_sublist _ _)⟩
    · intro x hx y hy
      by_cases h0 : i = 0
      · subst h0; simp at hx
      · have hxp : x ≤ pl.lens.getD (i - 1) 0 :=
          mem_take_le hs hx (by omega) (by omega)
        have hxi : x ≤ pl.lens[i] := by
          have := sorted_getD hs (j := i - 1) (k := i) (by omega) hil
          rw [hgi] at this
          omega
        rw [if_neg h0] at hcol
        unfold PL.LengthAt at hcol
        rw [hgi] at hcol
        rcases List.mem_cons.mp hy with rfl | hy'
        · rw [hsub]; omega
        · rcases List.mem_cons.mp hy' with rfl | hy''
          · exact hxi
          · exact le_trans hxi (hrest y hy'')
  · -- Split
    rintro pl other ⟨hlen, hcount, hs, hb, _⟩
    have h15 : (15 : Nat) < pl.lens.length := by rw [hlen]; norm_num [BlockSize]
    have hnilrep : ∀ n : Nat, (List.replicate n lengthNil).Pairwise (α := Nat) (· ≤ ·) :=
      fun n => List.pairwise_replicate.mpr (Or.inr (le_refl _))
    constructor
    · unfold PL.Split PL.Sorted
      simp only
      rw [List.pairwise_append]
      refine ⟨hs.sublist (List.take_sublist _ _), hnilrep _, ?_⟩
      intro x hx y hy
      rw [List.eq_of_mem_replicate hy]
      exact hb x ((List.take_sublist _ _).subset hx)
    · unfold PL.Split PL.Sorted
      simp only
      rw [List.pairwise_append]
      have hadj : pl.lens.getD (BlockSize / 2 - 1) 0 = pl.lens.getD 15 0 := by
        norm_num [BlockSize]
      have hfb : ∀ b ∈ pl.lens.drop (BlockSize / 2),
          PL.sub32 b (pl.lens.getD (BlockSize / 2 - 1) 0) = b - pl.lens.getD 15 0 := by
        intro b hbm
        rw [hadj]
        unfold PL.sub32
        have h15Ub : pl.lens.getD 15 0 ≤ lengthNil := by
          rw [List.getD_eq_getElem _ _ h15]
          exact hb _ (List.getElem_mem h15)
        rw [Nat.mod_eq_of_lt (show pl.lens.getD 15 0 < U32 by omega)]
        have hb16 : pl.lens.getD 16 0 ≤ b := by
          have : b ∈ pl.lens.drop 16 := by norm_num [BlockSize] at hbm; exact hbm
          exact mem_drop_ge hs this (by rw [hlen]; norm_num [BlockSize])
        have h1516 := sorted_getD hs (j := 15) (k := 16) (by omega)
          (by rw [hlen]; norm_num [BlockSize])
        have hbU : b ≤ lengthNil := hb b ((List.drop_sublist _ _).subset hbm)
        have h15U : pl.lens.getD 15 0 ≤ lengthNil := by
          rw [List.getD_eq_getElem _ _ h15]
          exact hb _ (List.getElem_mem h15)
        exact mod_add_neg_of_le (by omega) (by omega) (by omega)
      refine ⟨?_, hnilrep _, ?_⟩
      · refine List.Pairwise.sublist (List.take_sublist _ _) ?_
        rw [List.pairwise_map]
        refine (hs.sublist (List.drop_sublist _ _)).imp_of_mem ?_
        intro a brm ha hbr hab
        rw [hfb a ha, hfb brm hbr]
        omega
      · intro x hx y hy
        rw [List.eq_of_mem_replicate hy]
        rcases List.mem_map.mp ((List.take_sublist _ _).subset hx) with ⟨a, ha, rfl⟩
        rw [hfb a ha]
        have := hb a ((List.drop_sublist _ _).subset ha)
        omega

/-- C7 witness: the amended preservation lemmas evaluated at the
vector `[3, 7]`: `InsertColumn 1`, growth `Update 1 5`, deletion
`Update 1` by `-2`, `SplitColumn 1 2`, and `Split`. -/
theorem claim_C7_amended_witness :
    ((PL.ofList [3, 7]).InsertColumn 1).Sorted ∧
      ((PL.ofList [3, 7]).Update 1 5).Sorted ∧
      ((PL.ofList [3, 7]).Update 1 (U32 - 2)).Sorted ∧
      ((PL.ofList [3, 7]).SplitColumn 1 2).Sorted ∧
      ((PL.ofList [3, 7]).Split PL.empty).1.Sorted ∧
      ((PL.ofList [3, 7]).Split PL.empty).2.Sorted := by
  refine ⟨claim_C7_amended.1 _ 1 (by decide) (by decide) (by decide),
    claim_C7_amended.2.1 _ 1 5 (by decide) (by decide),
    claim_C7_amended.2.2.1 _ 1 2 (by decide) (by decide) (by decide),
    claim_C7_amended.2.2.2.1 _ 1 2 (by decide) (by decide) (by decide) (by decide),
    (claim_C7_amended.2.2.2.2 _ PL.empty (by decide)).1,
    (claim_C7_amended.2.2.2.2 _ PL.empty (by decide)).2⟩


/-! Phase equations for the loopback `Replace(1, 1, "X")`. -/

theorem step_sL : StartLocalEdit tLoad = sL := rfl

theorem step_sA : findAndSplit sL (1 + 1) = (sA, some 1) := rfl

theorem step_sB : findAndSplit sA 1 = (sB, some 2) := rfl

theorem step_sC :
    tombstoneLoop ((flattenRaw sB.root).length + 1) sB 0 (some 2) (some 1)
      = sC := rfl

theorem step_sD : insertNewSegment sC 0 "X".toList (some 1) = sD := rfl

theorem step_core_X : ReplaceCore sL 1 1 "X".toList 0 = tAfterX := by
  simp only [ReplaceCore, step_sA, step_sB, step_sC, step_sD,
    show ((0 : Nat) < 1) = True from by simp,
    show ("X".toList.length > 0) = True from by simp, gt_iff_lt, if_true]
  rfl

theorem step_rl_X : ReplaceLocal tLoad 1 1 "X".toList = (tAfterX, some msgX) := by
  simp only [ReplaceLocal, step_sL, show sL.nextEditId - 1 = 0 from rfl,
    step_core_X]
  rfl

theorem step_lw1 :
    LoopWorld.Replace ⟨tLoad, 0, 0, []⟩ 1 1 "X".toList = ⟨tAckX, 1, 0, []⟩ := by
  simp only [LoopWorld.Replace, step_rl_X]
  rfl

theorem step_lw2 :
    LoopWorld.Replace ⟨tAckX, 1, 0, []⟩ 0 0 "Y".toList = ⟨tPre, 2, 0, []⟩ := by
  have h : ReplaceLocal tAckX 0 0 "Y".toList = (tAfterY, some msgY) := rfl
  simp only [LoopWorld.Replace, h]
  rfl

/-! Phase equations for client 10's `Replace(1, 3, "X")`. -/

theorem step_aL : StartLocalEdit tA0 = aL := rfl

theorem step_aA : findAndSplit aL (1 + 3) = (aA, some 1) := rfl

theorem step_aB : findAndSplit aA 1 = (aB, some 2) := rfl

theorem step_aC :
    tombstoneLoop ((flattenRaw aB.root).length + 1) aB 1 (some 2) (some 1)
      = aC := rfl

theorem step_aD : insertNewSegment aC 1 "X".toList (some 1) = aD := rfl

theorem step_core_AX : ReplaceCore aL 1 3 "X".toList 1 = tA1 := by
  simp only [ReplaceCore, step_aA, step_aB, step_aC, step_aD,
    show ((0 : Nat) < 3) = True from by simp,
    show ("X".toList.length > 0) = True from by simp, gt_iff_lt, if_true]
  rfl

theorem step_rl_AX :
    ReplaceLocal tA0 1 3 "X".toList = (tA1, some smX.msg) := by
  simp only [ReplaceLocal, step_aL, show aL.nextEditId - 1 = 1 from rfl,
    step_core_AX]
  rfl

theorem step_mw1 : MultiWorld.Replace mwBase 0 1 3 "X".toList = mwW1 := by
  simp only [MultiWorld.Replace, show mwBase.trees.get? 0 = some tA0 from rfl,
    step_rl_AX]
  rfl

/-! Phase equations for client 11's `Replace(2, 3, "Y")`. -/

theorem step_bL : StartLocalEdit tB0 = bL := rfl

theorem step_bA : findAndSplit bL (2 + 3) = (bA, some 1) := rfl

theorem step_bB : findAndSplit bA 2 = (bB, some 2) := rfl

theorem step_bC :
    tombstoneLoop ((flattenRaw bB.root).length + 1) bB 1 (some 2) (some 1)
      = bC := rfl

theorem step_bD : insertNewSegment bC 1 "Y".toList (some 1) = bD := rfl

theorem step_core_BY : ReplaceCore bL 2 3 "Y".toList 1 = tB2 := by
  simp only [ReplaceCore, step_bA, step_bB, step_bC, step_bD,
    show ((0 : Nat) < 3) = True from by simp,
    show ("Y".toList.length > 0) = True from by simp, gt_iff_lt, if_true]
  rfl

theorem step_rl_BY :
    ReplaceLocal tB0 2 3 "Y".toList = (tB2, some smY.msg) := by
  simp only [ReplaceLocal, step_bL, show bL.nextEditId - 1 = 1 from rfl,
    step_core_BY]
  rfl

theorem step_mw2 : MultiWorld.Replace mwW1 1 2 3 "Y".toList = mwW2 := by
  simp only [MultiWorld.Replace, show mwW1.trees.get? 1 = some tB0 from rfl,
    step_rl_BY]
  rfl

/-! Phase equations for the deliveries of `PumpMessages`. -/

theorem step_omr1 : OnMessageReceived tA1 smX = tA2 := rfl

theorem step_omr2 : OnMessageReceived tB2 smX = tB2x := rfl

theorem step_dAa : findAndSplit dA (1 + 2) = (dAa, some 4) := rfl

theorem step_dAb : findAndSplit dAa 1 = (dAa, some 3) := rfl

theorem step_dAc0 :
    tombstoneLoop ((flattenRaw dAa.root).length + 1) dAa 2 (some 3) (some 4)
      = dAc0 := rfl

theorem step_dAc1 : insertNewSegment dAc0 2 "Y".toList (some 4) = dAc1 := rfl

theorem step_core_d : ReplaceCore dA 1 2 "Y".toList 2 = tAf := by
  simp only [ReplaceCore, step_dAa, step_dAb, step_dAc0, step_dAc1,
    show ((0 : Nat) < 2) = True from by simp,
    show ("Y".toList.length > 0) = True from by simp, gt_iff_lt, if_true]
  rfl

theorem step_omr3 : OnMessageReceived tA2 smY = tAf := by
  have h : OnMessageReceived tA2 smY
      = ClearOldSequenceNumbers
          (RebaseLocalEdits (ReplaceCore dA 1 2 "Y".toList 2) 3 3) 0 := rfl
  rw [h, step_core_d]
  rfl

theorem step_omr4 : OnMessageReceived tB2x smY = tBf := rfl

theorem step_pump : mwW2.Pump = mwFin := by
  simp only [MultiWorld.Pump, show mwW2.msgs = [smX, smY] from rfl,
    show mwW2.trees = [tA1, tB2] from rfl, List.foldl, List.map,
    step_omr1, step_omr2, step_omr3, step_omr4]
  rfl

/-- C1 (refuted: code bug): `Replace` is not a splice.  The public
loopback operations load `"abc"`, `Replace(1,1,"X")`, `Replace(0,0,"Y")`
reach `tPre`, whose visible document is `"YaXc"` with `CpMac() = 4`; the
bounds `cp = 0`, `dcp = 3` of the next call are in range, so the claim
asks for the document `"Z" ++ "c"` and `CpMac() = 4 - 3 + 1 = 2`.
Instead `Replace(0, 3, "Z")` leaves `CpMac() = 0` and an empty
concatenated fetch: the tombstone loop also walks the dead `"b"`
segment (`SegmentIterator::Next` skips only `IsRemoved`), so
`updateParentLengths(-1)` runs once too often and the root's partial
lengths wrap through `lengthNil`, corrupting the length column. -/
theorem claim_C1 :
    LoopWorld.Replace
        (LoopWorld.Replace ⟨loadTexts (newTree 7) ["abc".toList], 0, 0, []⟩
          1 1 "X".toList) 0 0 "Y".toList = ⟨tPre, 2, 0, []⟩ ∧
    fetchDoc tPre = "YaXc".toList ∧ CpMacOf tPre = 4 ∧
    (ReplaceLocal tPre 0 3 "Z".toList).1 = tCorrupt ∧
    CpMacOf tCorrupt ≠ 4 - 3 + "Z".toList.length ∧
    fetchDoc tCorrupt ≠ "Z".toList ++ "YaXc".toList.drop 3 ∧
    CpMacOf tCorrupt = 0 ∧ fetchDoc tCorrupt = [] := by
  refine ⟨?_, rfl, rfl, ?_, by decide, by decide, rfl, rfl⟩
  · rw [show loadTexts (newTree 7) ["abc".toList] = tLoad from rfl, step_lw1]
    exact step_lw2
  · exact congrArg Prod.fst
      (show ReplaceLocal tPre 0 3 "Z".toList = (tCorrupt, some msgZ) from rfl)

/-- C2 (refuted: code bug): two clients of the multi-client router do
not converge.  Starting from the synchronised document `"abcdef"`,
client 10 issues `Replace(1, 3, "X")` and client 11 concurrently issues
`Replace(2, 3, "Y")`; after `PumpMessages` delivers both sequenced
messages to both clients (so `m_editsLocal` is empty on each), client
10 reads `"aYf"` while client 11 reads `"aXYf"`: the tardis adjustment
of overlapping remove-and-insert ranges is not commutative. -/
theorem claim_C2 :
    (MultiWorld.Replace (mkMultiWorld 2) 0 0 0 "abcdef".toList).Pump
        = mwBase ∧
    mwBase.trees.map fetchDoc = ["abcdef".toList, "abcdef".toList] ∧
    (MultiWorld.Replace (MultiWorld.Replace mwBase 0 1 3 "X".toList)
        1 2 3 "Y".toList).Pump = mwFin ∧
    mwFin.trees.map MTree.editsLocal = [[], []] ∧
    mwFin.trees.map fetchDoc = ["aYf".toList, "aXYf".toList] ∧
    "aYf".toList ≠ "aXYf".toList := by
  refine ⟨rfl, rfl, ?_, rfl, rfl, by decide⟩
  rw [step_mw1, step_mw2]
  exact step_pump

/-- C4 (refuted: code bug): the block invariants do not hold after every
public operation.  The reachable state `tPre` satisfies the
`checkBlockInvariants` conjunction (`blockOKb`), but the state left by
the public call `Replace(0, 3, "Z")` does not: the root's stored
`lengths` disagree with `recomputeLengthsSlow()` (stored total 0,
recomputed total 2), again because the tombstone loop walks the dead
`"b"` segment and wraps the partial lengths.  (Independently,
`MergeBlock::adopt` updates `stats.depthMin` with a `>` comparison —
a maximum — where a minimum is needed.) -/
theorem claim_C4 :
    (LoopWorld.Replace
        (LoopWorld.Replace ⟨loadTexts (newTree 7) ["abc".toList], 0, 0, []⟩
          1 1 "X".toList) 0 0 "Y".toList).tree = tPre ∧
    blockOKb tPre.root = true ∧
    (ReplaceLocal tPre 0 3 "Z".toList).1 = tCorrupt ∧
    blockOKb tCorrupt.root = false := by
  refine ⟨?_, rfl, ?_, rfl⟩
  · rw [show loadTexts (newTree 7) ["abc".toList] = tLoad from rfl, step_lw1,
      step_lw2]
  · exact congrArg Prod.fst
      (show ReplaceLocal tPre 0 3 "Z".toList = (tCorrupt, some msgZ) from rfl)

/-- C6 (refuted: code bug): a completed maintenance sweep can leak dead
segments.  The reachable state `tPre` contains the dead `"b"` segment,
but its root is balanced, so `RunMaintenance` (with `fKeepGoing` held
true) returns at once for every iteration budget, leaving the dead
segment in the tree: dead segments are only pruned when the root is
unbalanced. -/
theorem claim_C6 : ∀ fuel : Nat,
    RunMaintenance (fuel + 1) tPre = some tPre ∧
    tPre.root.IsUnbalanced = false ∧
    (flattenRaw tPre.root).any (fun s => s.isDead) = true := by
  intro fuel
  refine ⟨?_, rfl, rfl⟩
  show RunArborist (fuel + 1) tPre = some tPre
  show (if tPre.root.IsUnbalanced then RunArborist fuel (arboristStep tPre)
        else some tPre) = some tPre
  rw [show tPre.root.IsUnbalanced = false from rfl]
  simp

/-! Preservation of `nodeNoRef` under the structural tree operations,
and of `addedOf` under the edit-map operations. -/

theorem flattenRawList_append (cs ds : List MNode) :
    flattenRawList (cs ++ ds) = flattenRawList cs ++ flattenRawList ds := by
  induction cs with
  | nil => rfl
  | cons c cs ih => simp [flattenRawList, ih]

theorem listNoRef_append {eid : Nat} {cs ds : List MNode} :
    listNoRef eid (cs ++ ds) = (listNoRef eid cs && listNoRef eid ds) := by
  simp [listNoRef, flattenRawList_append]

theorem listNoRef_cons {eid : Nat} {c : MNode} {cs : List MNode} :
    listNoRef eid (c :: cs) = (nodeNoRef eid c && listNoRef eid cs) := by
  simp [listNoRef, nodeNoRef, flattenRawList]

theorem listNoRef_mem {eid : Nat} {cs : List MNode} {c : MNode}
    (h : listNoRef eid cs = true) (hc : c ∈ cs) : nodeNoRef eid c = true := by
  induction cs with
  | nil => cases hc
  | cons d ds ih =>
    rw [listNoRef_cons, Bool.and_eq_true] at h
    rcases hc with _ | hc
    · exact h.1
    · exact ih h.2 (by assumption)

theorem listNoRef_of_forall {eid : Nat} {cs : List MNode}
    (h : ∀ c ∈ cs, nodeNoRef eid c = true) : listNoRef eid cs = true := by
  induction cs with
  | nil => rfl
  | cons d ds ih =>
    rw [listNoRef_cons, Bool.and_eq_true]
    exact ⟨h d (by simp), ih (fun c hc => h c (by simp [hc]))⟩

theorem nodeNoRef_setIndex {eid : Nat} (c : MNode) (j : Int) :
    nodeNoRef eid (c.setIndex j) = nodeNoRef eid c := by
  cases c <;> rfl

theorem listNoRef_sublist {eid : Nat} {cs ds : List MNode}
    (hsub : ds.Sublist cs) (h : listNoRef eid cs = true) :
    listNoRef eid ds = true :=
  listNoRef_of_forall (fun c hc => listNoRef_mem h (hsub.subset hc))

theorem listNoRef_modify {eid : Nat} {f : MNode → MNode}
    (hf : ∀ c, nodeNoRef eid c = true → nodeNoRef eid (f c) = true) :
    ∀ {cs : List MNode} {i : Nat}, listNoRef eid cs = true →
      listNoRef eid (cs.modify f i) = true := by
  intro cs
  induction cs with
  | nil => intro i h; simpa using h
  | cons d ds ih =>
    intro i h
    rw [listNoRef_cons, Bool.and_eq_true] at h
    cases i with
    | zero =>
      rw [List.modify_zero_cons, listNoRef_cons, Bool.and_eq_true]
      exact ⟨hf d h.1, h.2⟩
    | succ i =>
      rw [List.modify_succ_cons, listNoRef_cons, Bool.and_eq_true]
      exact ⟨h.1, ih h.2⟩

theorem nodeNoRef_modifyAt {eid : Nat} {f : MNode → MNode}
    (hf : ∀ m, nodeNoRef eid m = true → nodeNoRef eid (f m) = true) :
    ∀ (p : Path) (n : MNode), nodeNoRef eid n = true →
      nodeNoRef eid (modifyAt n p f) = true
  | [], n, h => by cases n <;> exact hf _ h
  | _ :: _, .seg _, h => h
  | i :: p, .block bd cs, h =>
    listNoRef_modify (fun c hc => nodeNoRef_modifyAt hf p c hc) h

theorem nodeNoRef_updAncestors {eid : Nat} {d : Nat} :
    ∀ (p : Path) (n : MNode), nodeNoRef eid n = true →
      nodeNoRef eid (updAncestors n p d) = true
  | [], n, h => by cases n <;> exact h
  | _ :: _, .seg _, h => h
  | i :: p, .block bd cs, h => by
    cases p with
    | nil => exact h
    | cons j q =>
      exact listNoRef_modify
        (fun c hc => nodeNoRef_updAncestors (j :: q) c hc) h

theorem listNoRef_mapIdx {eid : Nat} :
    ∀ (cs : List MNode) (g : Nat → MNode → MNode),
      (∀ i c, nodeNoRef eid (g i c) = nodeNoRef eid c) →
      listNoRef eid (cs.mapIdx g) = listNoRef eid cs := by
  intro cs
  induction cs with
  | nil => intro g _; rfl
  | cons d ds ih =>
    intro g hg
    rw [List.mapIdx_cons, listNoRef_cons, listNoRef_cons, hg,
      ih (fun i => g (i + 1)) (fun i c => hg (i + 1) c)]

theorem nodeNoRef_mkBlock {eid : Nat} {bid : Nat} {cs : List MNode}
    (h : listNoRef eid cs = true) : nodeNoRef eid (mkBlock bid cs) = true := by
  show listNoRef eid (cs.mapIdx fun i c => c.setIndex (i : Int)) = true
  rw [listNoRef_mapIdx cs _ (fun i c => nodeNoRef_setIndex c i)]
  exact h

theorem nodeNoRef_getNodeAt {eid : Nat} :
    ∀ (p : Path) (n m : MNode), getNodeAt n p = some m →
      nodeNoRef eid n = true → nodeNoRef eid m = true
  | [], n, m, hm, h => by
    rw [show getNodeAt n [] = some n from by cases n <;> rfl] at hm
    cases hm; exact h
  | _ :: _, .seg _, m, hm, h => by rw [getNodeAt] at hm; cases hm
  | i :: p, .block bd cs, m, hm, h => by
    rw [getNodeAt, Option.bind_eq_some] at hm
    rcases hm with ⟨c, hc, hcm⟩
    exact nodeNoRef_getNodeAt p c m hcm
      (listNoRef_mem h (List.get?_mem hc))

theorem listNoRef_adoptList {eid : Nat} {newNode : MNode} {childIndex : Nat}
    (hnew : nodeNoRef eid newNode = true) {cs : List MNode}
    (h : listNoRef eid cs = true) :
    listNoRef eid (cs.take childIndex ++ [newNode.setIndex (childIndex : Int)]
      ++ (cs.drop childIndex).mapIdx
           (fun j c => c.setIndex ((childIndex : Int) + 1 + (j : Int)))) = true := by
  rw [listNoRef_append, listNoRef_append, Bool.and_eq_true, Bool.and_eq_true]
  refine ⟨⟨listNoRef_sublist (List.take_sublist _ _) h, ?_⟩, ?_⟩
  · rw [listNoRef_cons, nodeNoRef_setIndex]
    simpa [listNoRef, flattenRawList] using hnew
  · rw [listNoRef_mapIdx _ _ (fun i c => nodeNoRef_setIndex c _)]
    exact listNoRef_sublist (List.drop_sublist _ _) h

theorem nodeNoRef_adoptAt {eid : Nat} {root newNode : MNode} {bpath : Path}
    {childIndex : Nat} {fWasSplit : Bool}
    (h : nodeNoRef eid root = true) (hnew : nodeNoRef eid newNode = true) :
    nodeNoRef eid (adoptAt root bpath newNode childIndex fWasSplit) = true := by
  cases newNode with
  | seg s =>
    cases fWasSplit with
    | false =>
      refine nodeNoRef_updAncestors _ _ (nodeNoRef_modifyAt ?_ bpath root h)
      intro m hm
      cases m with
      | seg s2 => exact hm
      | block bd cs => exact listNoRef_adoptList hnew hm
    | true =>
      refine nodeNoRef_modifyAt ?_ bpath root h
      intro m hm
      cases m with
      | seg s2 => exact hm
      | block bd cs => exact listNoRef_adoptList hnew hm
  | block nbd ncs =>
    refine nodeNoRef_modifyAt ?_ bpath root h
    intro m hm
    cases m with
    | seg s2 => exact hm
    | block bd cs => exact listNoRef_adoptList hnew hm

theorem nodeNoRef_splitBlockAt {eid : Nat} {root : MNode} {bpath : Path}
    {nb : Nat} (h : nodeNoRef eid root = true) :
    nodeNoRef eid (splitBlockAt root bpath nb).1 = true := by
  rw [splitBlockAt]
  split
  · next bd cs hget =>
    have hcs : listNoRef eid cs = true :=
      nodeNoRef_getNodeAt bpath root _ hget h
    exact nodeNoRef_adoptAt
      (nodeNoRef_modifyAt
        (fun m hm => by
          cases m with
          | seg s => exact hm
          | block bd2 cs2 => exact listNoRef_sublist (List.take_sublist _ _) hcs)
        bpath root h)
      (nodeNoRef_mkBlock (listNoRef_sublist (List.drop_sublist _ _) hcs))
  · exact h

theorem nodeNoRef_matchSplit {eid : Nat} (r : MNode × Nat) (bid : Nat)
    (h : nodeNoRef eid r.1 = true) :
    nodeNoRef eid
      (match findBlockPath r.1 bid with
       | some p => splitBlockAt r.1 p r.2
       | none => r).1 = true := by
  rcases hh : findBlockPath r.1 bid with _ | p <;> simp only [hh]
  · exact h
  · exact nodeNoRef_splitBlockAt h

theorem nodeNoRef_ensureExtraAux {eid : Nat} :
    ∀ (fuel : Nat) (root : MNode) (bpath : Path) (cNew nb : Nat),
      nodeNoRef eid root = true →
      nodeNoRef eid (ensureExtraAux fuel root bpath cNew nb).1 = true := by
  intro fuel
  induction fuel with
  | zero => intro root bpath cNew nb h; exact h
  | succ fuel ih =>
    intro root bpath cNew nb h
    rw [ensureExtraAux]
    split
    · next bd cs hget =>
      split
      · rcases bpath with _ | ⟨i, rest⟩
        · have hcs : listNoRef eid cs = true :=
            nodeNoRef_getNodeAt [] root (MNode.block bd cs) hget h
          exact nodeNoRef_splitBlockAt (nodeNoRef_adoptAt
            (nodeNoRef_modifyAt
              (fun m hm => by
                cases m with
                | seg s => exact hm
                | block bd2 cs2 => rfl)
              [] root h)
            (nodeNoRef_mkBlock hcs))
        · exact nodeNoRef_matchSplit _ bd.blockId (ih root _ 1 nb h)
      · exact h
    · exact h

/-! `addedOf` under the edit-map operations. -/

theorem find?_map_editId {g : EditRec → EditRec}
    (hg : ∀ e, (g e).editId = e.editId) (l : List EditRec) (eid : Nat) :
    (l.map g).find? (fun e => decide (e.editId = eid))
      = (l.find? (fun e => decide (e.editId = eid))).map g := by
  induction l with
  | nil => rfl
  | cons a l ih =>
    rw [List.map_cons, List.find?_cons, List.find?_cons, hg]
    by_cases ha : a.editId = eid
    · simp [ha]
    · simp only [decide_eq_false ha]
      exact ih

theorem addedOf_eq (st : MTree) (eid : Nat) :
    addedOf st eid
      = ((st.editsLocal ++ st.edits).find? (fun e => decide (e.editId = eid))).map
          (fun e => e.segmentsAdded) := rfl

theorem addedOf_editsMap_ne {st : MTree} {tgt eid : Nat}
    {f : EditRec → EditRec} (hne : tgt ≠ eid)
    (hg : ∀ e, (f e).editId = e.editId) :
    addedOf (editsMap st tgt f) eid = addedOf st eid := by
  have hid : ∀ e : EditRec,
      ((fun e => if e.editId = tgt then f e else e) e).editId = e.editId := by
    intro e; by_cases h : e.editId = tgt <;> simp [h, hg]
  show ((st.editsLocal.map _ ++ st.edits.map _).find? _).map _ = _
  rw [← List.map_append, find?_map_editId hid, addedOf_eq]
  cases hfind : (st.editsLocal ++ st.edits).find?
      (fun e => decide (e.editId = eid)) with
  | none => rfl
  | some ed =>
    have hed : ed.editId = eid := by
      have := List.find?_some hfind
      simpa using this
    simp [hed, hne.symm]

theorem addedOf_editsMap_keep {st : MTree} {tgt eid : Nat}
    {f : EditRec → EditRec} (hg : ∀ e, (f e).editId = e.editId)
    (hk : ∀ e, (f e).segmentsAdded = e.segmentsAdded) :
    addedOf (editsMap st tgt f) eid = addedOf st eid := by
  have hid : ∀ e : EditRec,
      ((fun e => if e.editId = tgt then f e else e) e).editId = e.editId := by
    intro e; by_cases h : e.editId = tgt <;> simp [h, hg]
  show ((st.editsLocal.map _ ++ st.edits.map _).find? _).map _ = _
  rw [← List.map_append, find?_map_editId hid, addedOf_eq]
  cases hfind : (st.editsLocal ++ st.edits).find?
      (fun e => decide (e.editId = eid)) with
  | none => rfl
  | some ed => by_cases h : ed.editId = tgt <;> simp [h, hk]

theorem addedOf_editsMap_append {st : MTree} {eid : Nat} {l : List Nat}
    {sid : Nat} (h : addedOf st eid = some l) :
    addedOf (editsMap st eid (fun e =>
      { e with segmentsAdded := e.segmentsAdded ++ [sid] })) eid
      = some (l ++ [sid]) := by
  have hid : ∀ e : EditRec,
      ((fun e => if e.editId = eid then
          { e with segmentsAdded := e.segmentsAdded ++ [sid] } else e) e).editId
        = e.editId := by
    intro e; by_cases hh : e.editId = eid <;> simp [hh]
  rw [addedOf_eq] at h
  show ((st.editsLocal.map _ ++ st.edits.map _).find? _).map _ = _
  rw [← List.map_append, find?_map_editId hid]
  cases hfind : (st.editsLocal ++ st.edits).find?
      (fun e => decide (e.editId = eid)) with
  | none => rw [hfind] at h; cases h
  | some ed =>
    have hed : ed.editId = eid := by
      have := List.find?_some hfind
      simpa using this
    rw [hfind] at h
    simp only [Option.map_some'] at h
    cases h
    simp [hed]

theorem addedOf_setRoot {st : MTree} {root : MNode} {eid : Nat} :
    addedOf { st with root := root } eid = addedOf st eid := rfl

theorem addedOf_setRootBid {st : MTree} {root : MNode} {nb eid : Nat} :
    addedOf { st with root := root, nextBlockId := nb } eid
      = addedOf st eid := rfl

theorem addedOf_editsMap_remAppend {st : MTree} {tgt eid sid : Nat} :
    addedOf (editsMap st tgt (fun e =>
      { e with segmentsRemoved := e.segmentsRemoved ++ [sid] })) eid
      = addedOf st eid :=
  addedOf_editsMap_keep (fun e => rfl) (fun e => rfl)

theorem addedOf_editsMap_addAppend_ne {st : MTree} {tgt eid sid : Nat}
    (hne : tgt ≠ eid) :
    addedOf (editsMap st tgt (fun e =>
      { e with segmentsAdded := e.segmentsAdded ++ [sid] })) eid
      = addedOf st eid :=
  addedOf_editsMap_ne hne (fun e => rfl)

theorem addedOf_editsMap_adj {st : MTree} {tgt eid : Nat} {a b : Int} :
    addedOf (editsMap st tgt (fun e =>
      { e with adjCp := a, adjDcp := b })) eid = addedOf st eid :=
  addedOf_editsMap_keep (fun e => rfl) (fun e => rfl)

/-! The fresh edit through the phases of `Replace`. -/

theorem flattenRawList_eq {cs : List MNode} {bd : BlockData} :
    flattenRaw (.block bd cs) = flattenRawList cs := rfl

mutual
theorem findInNode_mem : ∀ (n : MNode) (off : Nat) (r : Path × SegData × Nat),
    findInNode n off = some r → r.2.1 ∈ flattenRaw n
  | .seg s, off, r => by
    intro h
    simp only [findInNode] at h
    cases h
    simp [flattenRaw]
  | .block bd cs, off, r => by
    intro h
    simp only [findInNode, Option.map_eq_some'] at h
    rcases h with ⟨x, hx, rfl⟩
    exact findInList_mem cs _ _ x hx
theorem findInList_mem : ∀ (cs : List MNode) (i off : Nat)
    (r : Path × SegData × Nat),
    findInList cs i off = some r → r.2.1 ∈ flattenRawList cs
  | [], _, _, r => by intro h; simp [findInList] at h
  | c :: cs, 0, off, r => by
    intro h
    simp only [findInList] at h
    have := findInNode_mem c off r h
    simp [flattenRawList, this]
  | c :: cs, i + 1, off, r => by
    intro h
    simp only [findInList] at h
    have := findInList_mem cs i off r h
    simp [flattenRawList, this]
end

theorem noRefSeg_of_mem {eid : Nat} {root : MNode} {s : SegData}
    (h : nodeNoRef eid root = true) (hs : s ∈ flattenRaw root) :
    s.edAdded ≠ some eid ∧ s.edRemoved ≠ some eid := by
  rw [nodeNoRef, List.all_eq_true] at h
  have := h s hs
  rw [noRefSeg, Bool.and_eq_true, decide_eq_true_eq, decide_eq_true_eq] at this
  exact this

theorem nodeNoRef_editsMap {st : MTree} {tgt eid : Nat} {f : EditRec → EditRec} :
    nodeNoRef eid (editsMap st tgt f).root = nodeNoRef eid st.root := rfl

theorem findAndSplit_inv {st : MTree} {cp eid : Nat} {l : List Nat}
    (hroot : nodeNoRef eid st.root = true) (hadd : addedOf st eid = some l) :
    nodeNoRef eid (findAndSplit st cp).1.root = true ∧
    addedOf (findAndSplit st cp).1 eid = some l := by
  rw [findAndSplit]
  cases htf : treeFind st cp with
  | none => exact ⟨hroot, hadd⟩
  | some tpl =>
    obtain ⟨p0, s, off⟩ := tpl
    simp only []
    have hsmem : s ∈ flattenRaw st.root := by
      rw [treeFind] at htf
      split at htf
      · cases htf
      · exact findInNode_mem st.root cp _ htf
    obtain ⟨hsa, hsr⟩ := noRefSeg_of_mem hroot hsmem
    by_cases hoff : off = 0
    · rw [if_pos hoff]
      exact ⟨hroot, hadd⟩
    · rw [if_neg hoff]
      cases hsp : findSegPath st.root s.segId with
      | none => exact ⟨hroot, hadd⟩
      | some q0 =>
        simp only []
        -- the state after `ensureExtraCapacity`
        have hens : nodeNoRef eid
            (ensureExtra st.root q0.dropLast 1 st.nextBlockId).1 = true :=
          nodeNoRef_ensureExtraAux _ st.root _ 1 st.nextBlockId hroot
        cases hsp2 : findSegPath
            (ensureExtra st.root q0.dropLast 1 st.nextBlockId).1 s.segId with
        | none => exact ⟨hens, hadd⟩
        | some q =>
          simp only []
          -- truncation of the split segment in place
          have htrunc : nodeNoRef eid (modifyAt
              (ensureExtra st.root q0.dropLast 1 st.nextBlockId).1 q
              (fun n => match n with
                | .seg s => .seg { s with text := s.text.take off, length := off }
                | n => n)) = true := by
            refine nodeNoRef_modifyAt ?_ q _ hens
            intro m hm
            cases m with
            | seg s2 =>
              simp only
              simpa [nodeNoRef, flattenRaw, noRefSeg] using hm
            | block bd cs => exact hm
          -- the new right half holds the same edit references as `s`
          have hnew : nodeNoRef eid (MNode.seg
              { segId := st.nextSegId, text := s.text.drop off
                length := (s.text.drop off).length, isDead := s.isDead
                edAdded := s.edAdded, edRemoved := s.edRemoved
                index := s.index }) = true := by
            simp [nodeNoRef, flattenRaw, noRefSeg, hsa, hsr]
          cases hea : s.edAdded with
          | some e1 =>
            have he1 : e1 ≠ eid := by rintro rfl; exact hsa hea
            rw [hea] at hnew
            cases her : s.edRemoved with
            | some e2 =>
              rw [her] at hnew
              constructor
              · exact nodeNoRef_adoptAt htrunc hnew
              · rw [addedOf_setRoot, addedOf_editsMap_remAppend,
                  addedOf_editsMap_addAppend_ne he1]
                exact hadd
            | none =>
              rw [her] at hnew
              constructor
              · exact nodeNoRef_adoptAt htrunc hnew
              · rw [addedOf_setRoot, addedOf_editsMap_addAppend_ne he1]
                exact hadd
          | none =>
            rw [hea] at hnew
            cases her : s.edRemoved with
            | some e2 =>
              rw [her] at hnew
              constructor
              · exact nodeNoRef_adoptAt htrunc hnew
              · rw [addedOf_setRoot, addedOf_editsMap_remAppend]
                exact hadd
            | none =>
              rw [her] at hnew
              constructor
              · exact nodeNoRef_adoptAt htrunc hnew
              · rw [addedOf_setRoot]
                exact hadd

theorem tombstoneLoop_addedOf {eid : Nat} :
    ∀ (fuel : Nat) (st : MTree) (it0 itEnd : Option Nat),
      addedOf (tombstoneLoop fuel st eid it0 itEnd) eid = addedOf st eid := by
  intro fuel
  induction fuel with
  | zero => intro st it0 itEnd; rfl
  | succ fuel ih =>
    intro st it0 itEnd
    rw [tombstoneLoop.eq_def]
    simp only []
    split
    · rfl
    · cases it0 with
      | none => rfl
      | some sid =>
        simp only []
        cases hsp : findSegPath st.root sid with
        | none => rfl
        | some p =>
          simp only []
          rw [ih, addedOf_editsMap_remAppend, addedOf_setRoot]

theorem addedOf_setNextSegId {st : MTree} {ns eid : Nat} :
    addedOf { st with nextSegId := ns } eid = addedOf st eid := rfl

theorem insertNewSegment_addedOf {st : MTree} {eid : Nat} {text : List Char}
    {itEnd : Option Nat} {l : List Nat} (h : addedOf st eid = some l) :
    addedOf (insertNewSegment st eid text itEnd) eid
      = some (l ++ [st.nextSegId]) := by
  rw [insertNewSegment.eq_def]
  simp only []
  have hmid : addedOf (editsMap { st with nextSegId := st.nextSegId + 1 } eid
      (fun e => { e with segmentsAdded := e.segmentsAdded ++ [st.nextSegId] }))
      eid = some (l ++ [st.nextSegId]) :=
    addedOf_editsMap_append (show addedOf { st with nextSegId := st.nextSegId + 1 }
      eid = some l from h)
  repeat' split
  all_goals exact hmid

theorem ReplaceCore_addedOf {st : MTree} {cp dcp eid : Nat} {text : List Char}
    (hroot : nodeNoRef eid st.root = true) (hadd : addedOf st eid = some []) :
    (text = [] → addedOf (ReplaceCore st cp dcp text eid) eid = some []) ∧
    (text ≠ [] → ∃ sid, addedOf (ReplaceCore st cp dcp text eid) eid
      = some [sid]) := by
  rw [ReplaceCore]
  rcases hfs1 : findAndSplit st (cp + dcp) with ⟨st1, it1⟩
  have h1 := @findAndSplit_inv st (cp + dcp) eid [] hroot hadd
  rw [hfs1] at h1
  simp only [] at h1 ⊢
  obtain ⟨h1r, h1a⟩ := h1
  by_cases hd : dcp > 0
  · rw [if_pos hd]
    rcases hfs2 : findAndSplit st1 cp with ⟨st2, it2⟩
    have h2 := @findAndSplit_inv st1 cp eid [] h1r h1a
    rw [hfs2] at h2
    simp only [] at h2 ⊢
    obtain ⟨h2r, h2a⟩ := h2
    have ht : addedOf (tombstoneLoop ((flattenRaw st2.root).length + 1)
        st2 eid it2 it1) eid = some [] := by
      rw [tombstoneLoop_addedOf]; exact h2a
    constructor
    · intro htext
      subst htext
      rw [if_neg (by simp), addedOf_editsMap_adj]
      exact ht
    · intro htext
      rw [if_pos (by simpa using List.length_pos.mpr htext)]
      exact ⟨_, by rw [addedOf_editsMap_adj, insertNewSegment_addedOf ht]; rfl⟩
  · rw [if_neg hd]
    constructor
    · intro htext
      subst htext
      rw [if_neg (by simp), addedOf_editsMap_adj]
      exact h1a
    · intro htext
      rw [if_pos (by simpa using List.length_pos.mpr htext)]
      exact ⟨_, by rw [addedOf_editsMap_adj, insertNewSegment_addedOf h1a]; rfl⟩

theorem find?_append_none {p : EditRec → Bool} {l1 l2 : List EditRec}
    (h : l1.find? p = none) : (l1 ++ l2).find? p = l2.find? p := by
  induction l1 with
  | nil => rfl
  | cons a l ih =>
    by_cases hpa : p a = true
    · rw [List.find?_cons_of_pos _ hpa] at h; cases h
    · rw [List.find?_cons_of_neg _ (by simpa using hpa)] at h
      rw [List.cons_append, List.find?_cons_of_neg _ (by simpa using hpa)]
      exact ih h

theorem StartLocalEdit_addedOf {st : MTree}
    (hf : (st.edits ++ st.editsLocal).all
      (fun e => decide (e.editId ≠ st.nextEditId)) = true) :
    addedOf (StartLocalEdit st) st.nextEditId = some [] := by
  rw [List.all_append, Bool.and_eq_true] at hf
  have hnone : st.editsLocal.find?
      (fun e => decide (e.editId = st.nextEditId)) = none := by
    rw [List.find?_eq_none]
    intro e he
    have := List.all_eq_true.mp hf.2 e he
    simpa using this
  show Option.map (fun (e : EditRec) => e.segmentsAdded)
      (((st.editsLocal
          ++ [(⟨st.nextEditId, st.clientSeqNext, st.clientLocal, [], [],
               CpInvalid, 0⟩ : EditRec)]) ++ st.edits).find?
        (fun e => decide (e.editId = st.nextEditId))) = some []
  rw [List.append_assoc, find?_append_none hnone, List.singleton_append,
    List.find?_cons_of_pos _ (by simp)]
  rfl

theorem SendReplaceOp_none_iff {st : MTree} {cp dcp eid : Nat}
    {text : List Char} {l : List Nat} (h : addedOf st eid = some l) :
    (SendReplaceOp st cp dcp text eid = none ↔ l = []) := by
  rw [addedOf_eq] at h
  rw [SendReplaceOp]
  cases hfind : (st.editsLocal ++ st.edits).find?
      (fun e => decide (e.editId = eid)) with
  | none => rw [hfind] at h; cases h
  | some ed =>
    rw [hfind] at h
    simp only [Option.map_some'] at h
    cases h
    try simp only []
    by_cases hl : ed.segmentsAdded.length > 0
    · rw [if_pos hl]
      constructor
      · intro hh; cases hh
      · intro hh
        rw [hh] at hl
        cases hl
    · rw [if_neg hl]
      simp only [true_iff]
      have : ed.segmentsAdded.length = 0 := by omega
      simpa [List.length_eq_zero] using this

/-- C10: a local `Replace(cp, dcp, text)` (no edit supplied) escapes the
`assert(false)` branch of `SendReplaceOp` — i.e. actually sends an
Insert message — if and only if `text` is nonempty.  The hypothesis says
the id about to be allocated for the fresh edit is not already carried
by a live edit or referenced by a segment, which holds in every state
the code builds.  In particular a local pure deletion (`text = []`,
`dcp > 0`) always reaches the fatal assertion. -/
theorem claim_C10 (st : MTree) (cp dcp : Nat) (text : List Char)
    (hf : editIdFreshb st = true) :
    ((ReplaceLocal st cp dcp text).2 = none ↔ text = []) := by
  rw [editIdFreshb, Bool.and_eq_true] at hf
  have h1a : addedOf (StartLocalEdit st) st.nextEditId = some [] :=
    StartLocalEdit_addedOf hf.1
  have h1r : nodeNoRef st.nextEditId (StartLocalEdit st).root = true := hf.2
  rw [ReplaceLocal]
  simp only []
  rw [show (StartLocalEdit st).nextEditId - 1 = st.nextEditId from by
    show st.nextEditId + 1 - 1 = st.nextEditId
    omega]
  obtain ⟨hempty, hfull⟩ := @ReplaceCore_addedOf (StartLocalEdit st) cp dcp
    st.nextEditId text h1r h1a
  cases text with
  | nil =>
    rw [SendReplaceOp_none_iff (hempty rfl)]
    simp
  | cons c rest =>
    obtain ⟨sid, hsid⟩ := hfull (by simp)
    rw [SendReplaceOp_none_iff hsid]
    simp

theorem claim_C10_witness :
    editIdFreshb tLoad = true ∧
    (((ReplaceLocal tLoad 0 1 ([] : List Char)).2 = none) ↔
      ([] : List Char) = []) ∧
    (((ReplaceLocal tLoad 0 1 "Q".toList).2 = none) ↔ "Q".toList = []) :=
  ⟨rfl, claim_C10 tLoad 0 1 [] rfl, claim_C10 tLoad 0 1 "Q".toList rfl⟩

end MergeTreeSpec
